import Mathlib

/-
  Verification of the 0/1 knapsack solvers of CS-4660
  (src/2019/Knapsack/bb_solver.py and src/2019/Knapsack/dynamic_prog.py).

  The Python code is shallowly embedded:
  - Python ints become Int, float densities become exact Rat
    (density = value / weight as in solver.py make_an_Item).
  - The PriorityQueue of dynamic_prog, keyed by (-room, selection),
    becomes a list kept sorted by that key (ties compare the Selection
    namedtuple fields lexicographically, as Python tuple comparison does).
  - The PriorityQueue of bb_solver is keyed by (-pushes, selection) with a
    strictly increasing global push counter, hence it behaves as a LIFO
    stack; it is embedded as a list used as a stack.
  - Indexing an empty list (items_sorted_density[0] in both solvers)
    raises IndexError in Python; the embedded solvers return none there.
  - The items_count argument always equals the length of the item list in
    solver.py, so the embedding uses the list length directly.
  - The random child-push reversal of bb_solver (random.randint) is an
    explicit stream of booleans (one bit per expansion).
-/

namespace Knapsack

/-- An item as built by make_an_Item in solver.py: original index, value,
weight and density = value / weight. -/
structure Item where
  index : Int
  value : Int
  weight : Int
  density : Rat
deriving DecidableEq, Repr

/-- Default item used to express Python list indexing that is always in
range at its use sites. -/
def defaultItem : Item := ⟨0, 0, 0, 0⟩

/-- Exhaustive 0/1 search: the best total value of a sub-multiset of the
item list whose total weight fits into the given room.  This is the
specification both solvers are measured against. -/
def bestFuture (room : Int) : List Item → Int
  | [] => 0
  | it :: rest =>
    if it.weight ≤ room then
      max (bestFuture room rest) (it.value + bestFuture (room - it.weight) rest)
    else bestFuture room rest

/-- Total value of the items selected by a boolean choice vector
(positionally aligned with the item list, extra entries ignored). -/
def sumV : List Bool → List Item → Int
  | [], _ => 0
  | _, [] => 0
  | b :: bs, it :: its => (if b then it.value else 0) + sumV bs its

/-- Total weight of the items selected by a boolean choice vector. -/
def sumW : List Bool → List Item → Int
  | [], _ => 0
  | _, [] => 0
  | b :: bs, it :: its => (if b then it.weight else 0) + sumW bs its

/-- Indices (starting at k) of the true entries of a choice vector; this
is the taken-index list the solvers accumulate. -/
def trueIdxsZ (k : Int) : List Bool → List Int
  | [] => []
  | b :: bs => if b then k :: trueIdxsZ (k + 1) bs else trueIdxsZ (k + 1) bs

/-- Total value of a list of (sorted-order) item indices. -/
def takenValue (items : List Item) (taken : List Int) : Int :=
  (taken.map fun i => (items.getD i.toNat defaultItem).value).sum

/-- Total weight of a list of (sorted-order) item indices. -/
def takenWeight (items : List Item) (taken : List Int) : Int :=
  (taken.map fun i => (items.getD i.toNat defaultItem).weight).sum

/-- Density of the first item of a list, 0 when the list is empty; this
is the future density both solvers use for their fractional bound. -/
def headDensity : List Item → Rat
  | [] => 0
  | it :: _ => it.density

/-! ## The dynamic programming solver (dynamic_prog.py) -/

/-- The Selection namedtuple of dynamic_prog.py. -/
structure DSel where
  value : Int
  room : Int
  maxValue : Rat
  itemsTaken : List Int
deriving DecidableEq, Repr

/-- Python list comparison (lexicographic, shorter prefix first). -/
def listLe : List Int → List Int → Bool
  | [], _ => true
  | _ :: _, [] => false
  | a :: as_, b :: bs =>
    if a < b then true else if b < a then false else listLe as_ bs

/-- One step of Python tuple comparison: compare a component, fall
through to the rest on equality. -/
def lexb {α : Type} [LinearOrder α] (x y : α) (rest : Bool) : Bool :=
  if x < y then true else if y < x then false else rest

/-- Comparison of the queue elements (-room, selection) of dynamic_prog:
Python tuple comparison of (-room, value, room, max_value, items_taken). -/
def dselLe (a b : DSel) : Bool :=
  lexb (-a.room) (-b.room) (lexb a.value b.value (lexb a.room b.room
    (lexb a.maxValue b.maxValue (listLe a.itemsTaken b.itemsTaken))))

/-- Insertion into the priority queue of dynamic_prog, keeping the list
sorted by the queue key. -/
def qinsert (s : DSel) : List DSel → List DSel
  | [] => [s]
  | t :: ts => if dselLe s t then s :: t :: ts else t :: qinsert s ts

/-- The decline child built in the dynamic_prog loop: same value and
room, bound recomputed with the next future density. -/
def dpDecline (s : DSel) (futd : Rat) : DSel :=
  ⟨s.value, s.room, (s.value : Rat) + (s.room : Rat) * futd, s.itemsTaken⟩

/-- The take child built in the dynamic_prog loop. -/
def dpTake (s : DSel) (item : Item) (futd : Rat) (idx : Int) : DSel :=
  ⟨s.value + item.value, s.room - item.weight,
    ((s.value + item.value : Int) : Rat) + ((s.room - item.weight : Int) : Rat) * futd,
    s.itemsTaken ++ [idx]⟩

/-- One column sweep of dynamic_prog: drain the previous queue in key
order, apply the running column dominance filter (col_best_val,
col_best_max_val), and enqueue the surviving decline/take children,
updating the running best selection. -/
def dpInner (item : Item) (futd : Rat) (idx : Int) :
    List DSel → Int → Rat → List DSel → DSel → List DSel × DSel
  | [], _, _, q, best => (q, best)
  | s :: rest, cbv, cbm, q, best =>
    if s.value < cbv ∨ (s.value = cbv ∧ s.maxValue ≤ cbm) then
      dpInner item futd idx rest cbv cbm q best
    else
      if (best.value : Rat) < (dpTake s item futd idx).maxValue ∧
          0 ≤ (dpTake s item futd idx).room then
        dpInner item futd idx rest s.value s.maxValue
          (qinsert (dpTake s item futd idx)
            (if (best.value : Rat) < (dpDecline s futd).maxValue then
              qinsert (dpDecline s futd) q else q))
          (if best.value < (dpTake s item futd idx).value then
            dpTake s item futd idx else best)
      else
        dpInner item futd idx rest s.value s.maxValue
          (if (best.value : Rat) < (dpDecline s futd).maxValue then
            qinsert (dpDecline s futd) q else q)
          best

/-- The outer loop of dynamic_prog over the item columns. -/
def dpOuter : List Item → Int → List DSel → DSel → DSel
  | [], _, _, best => best
  | it :: rest, idx, queue, best =>
    let futd : Rat := headDensity rest
    let p := dpInner it futd idx queue 0 0 [] best
    dpOuter rest (idx + 1) p.1 p.2

/-- dynamic_prog of dynamic_prog.py.  Returns none when the item list is
empty (the Python code raises IndexError on density_sorted_items[0]). -/
def dynamic_prog (greedyValue : Int) (capacity : Int) (items : List Item) :
    Option (Int × List Int) :=
  match items with
  | [] => none
  | i0 :: _ =>
    let base : DSel := ⟨0, capacity, (capacity : Rat) * i0.density, []⟩
    let best : DSel := ⟨greedyValue, 0, (capacity : Rat) * i0.density, []⟩
    let fin := dpOuter items 0 (qinsert base []) best
    some (fin.value, fin.itemsTaken)

/-! ## The branch and bound solver (bb_solver.py) -/

/-- The Selection namedtuple of bb_solver.py. -/
structure BSel where
  sortedIndex : Int
  value : Int
  room : Int
  maxValue : Rat
  takenSorted : List Int
deriving DecidableEq, Repr

/-- BBSolver.too_heavy: the selection overran the capacity. -/
def too_heavy (s : BSel) : Bool := decide (s.room < 0)

/-- BBSolver.too_small: the bound cannot beat the current best, or ties
it with at least as many items decided. -/
def too_small (s best : BSel) : Bool :=
  decide (s.maxValue < (best.value : Rat)) ||
    (decide (s.maxValue = (best.value : Rat)) &&
      decide (best.sortedIndex ≤ s.sortedIndex))

/-- BBSolver.already_expanded: some expanded (value, room) pair at the
same sorted index dominates the selection.  The expanded table is kept
as a flat list of (sorted_index, value, room) triples. -/
def already_expanded (exp : List (Int × Int × Int)) (s : BSel) : Bool :=
  exp.any fun e =>
    decide (e.1 = s.sortedIndex) && decide (s.value ≤ e.2.1) &&
      decide (s.room ≤ e.2.2)

/-- Python comparison of two Selection namedtuples (field-lexicographic). -/
def bselLe (a b : BSel) : Bool :=
  lexb a.sortedIndex b.sortedIndex (lexb a.value b.value (lexb a.room b.room
    (lexb a.maxValue b.maxValue (listLe a.takenSorted b.takenSorted))))

/-- Ordered insertion used to model the Python sorted builtin on
selections. -/
def insSel (s : BSel) : List BSel → List BSel
  | [] => [s]
  | t :: ts => if bselLe s t then s :: t :: ts else t :: insSel s ts

/-- Python sorted on a list of selections. -/
def sortSel (l : List BSel) : List BSel := l.foldr insSel []

/-- Python max key comparison (value, -sorted_index): true when x beats
the current maximum strictly. -/
def pyBetter (cur x : BSel) : Bool :=
  decide (cur.value < x.value) ||
    (decide (cur.value = x.value) && decide (x.sortedIndex < cur.sortedIndex))

/-- Python max: fold keeping the first element of maximal key. -/
def pyMaxFrom (cur : BSel) : List BSel → BSel
  | [] => cur
  | x :: xs => pyMaxFrom (if pyBetter cur x then x else cur) xs

/-- Python max over new_selections + [best_selection]. -/
def pyMaxSel : List BSel → BSel → BSel
  | [], best => best
  | c :: cs, best => pyMaxFrom c (cs ++ [best])

/-- BBSolver.decline_next_item. -/
def decline_next_item (s : BSel) (nidx : Int) (futd : Rat) : BSel :=
  ⟨nidx, s.value, s.room, (s.value : Rat) + (s.room : Rat) * futd, s.takenSorted⟩

/-- BBSolver.take_next_item. -/
def take_next_item (s : BSel) (nidx : Int) (nitem : Item) (futd : Rat) : BSel :=
  ⟨nidx, s.value + nitem.value, s.room - nitem.weight,
    ((s.value + nitem.value : Int) : Rat) +
      ((s.room - nitem.weight : Int) : Rat) * futd,
    s.takenSorted ++ [nidx]⟩

/-- The future density used when expanding a selection: the density of
the item two places past the selection sorted index, 0 when there is no
such item. -/
def futDensity (items : List Item) (s : BSel) : Rat :=
  if (items.length : Int) ≤ s.sortedIndex + 2 then 0
  else (items.getD (s.sortedIndex + 2).toNat defaultItem).density

/-- The decline child built by expand_and_enqueue. -/
def bbDecline (items : List Item) (s : BSel) : BSel :=
  decline_next_item s (s.sortedIndex + 1) (futDensity items s)

/-- The take child built by expand_and_enqueue. -/
def bbTake (items : List Item) (s : BSel) : BSel :=
  take_next_item s (s.sortedIndex + 1)
    (items.getD (s.sortedIndex + 1).toNat defaultItem) (futDensity items s)

/-- The surviving children of a selection in expand_and_enqueue: the
decline/take pair filtered by too_heavy and too_small against the
current best selection. -/
def newSelections (items : List Item) (s best : BSel) : List BSel :=
  [bbDecline items s, bbTake items s].filter
    fun c => !too_heavy c && !too_small c best

/-- The mutable state of a BBSolver instance: the LIFO frontier, the
expanded table, the best selection and the number of random bits
consumed so far. -/
structure BBState where
  frontier : List BSel
  expanded : List (Int × Int × Int)
  best : BSel
  rk : Nat
deriving Repr

/-- The frontier segment pushed by one expansion: the children in the
random order chosen by randint, then sorted; pushing them one by one
onto the LIFO frontier reverses that sorted order. -/
def orderedPush (bit : Bool) (news : List BSel) : List BSel :=
  (sortSel (if bit then news else news.reverse)).reverse

/-- BBSolver.expand_and_enqueue.  The two surviving children are pushed
in Python sorted order after the random reversal; on the LIFO frontier
this prepends the reversed sorted list. -/
def expand_and_enqueue (rand : Nat → Bool) (items : List Item)
    (st : BBState) (s : BSel) : BBState :=
  let n : Int := items.length
  let exp2 := if 0 ≤ s.sortedIndex then
      st.expanded ++ [(s.sortedIndex, s.value, s.room)] else st.expanded
  let news := newSelections items s st.best
  let best2 := pyMaxSel news st.best
  let fr2 := match news with
    | [] => st.frontier
    | c :: _ =>
      if c.sortedIndex + 1 < n then
        orderedPush (rand st.rk) news ++ st.frontier
      else st.frontier
  ⟨fr2, exp2, best2, st.rk + 1⟩

/-- Insertion sort on integers: the Python sorted builtin applied to the
returned taken list. -/
def insInt (a : Int) : List Int → List Int
  | [] => [a]
  | b :: bs => if a ≤ b then a :: b :: bs else b :: insInt a bs

/-- Python sorted on a list of integers. -/
def sortedInts (l : List Int) : List Int := l.foldr insInt []

/-- The main loop of BBSolver.__call__, with explicit fuel. -/
def bbLoop (rand : Nat → Bool) (items : List Item) :
    Nat → BBState → Option (Int × List Int)
  | 0, _ => none
  | fuel + 1, st =>
    match st.frontier with
    | [] => some (st.best.value, sortedInts st.best.takenSorted)
    | s :: rest =>
      let st2 : BBState := ⟨rest, st.expanded, st.best, st.rk⟩
      if s.sortedIndex + 1 < (items.length : Int) ∧
          already_expanded st.expanded s = false ∧
          too_small s st.best = false then
        bbLoop rand items fuel (expand_and_enqueue rand items st2 s)
      else
        bbLoop rand items fuel st2

/-- All boolean choice vectors of a given length. -/
def boolLists : Nat → List (List Bool)
  | 0 => [[]]
  | m + 1 => (boolLists m).flatMap fun l => [false :: l, true :: l]

/-- Every (sorted_index, value, room) triple a reachable selection can
carry; used to bound the size of the expanded table. -/
def allTriples (cap : Int) (items : List Item) : List (Int × Int × Int) :=
  (List.range items.length).flatMap fun i =>
    (boolLists (i + 1)).map fun bs =>
      ((i : Int), sumV bs items, cap - sumW bs items)

/-- Fuel sufficient for bbLoop to drain the frontier (proved below). -/
def bbFuel (cap : Int) (items : List Item) : Nat :=
  2 * (allTriples cap items).length + 4

/-- BBSolver construction plus __call__: build the dummy root, expand it
once, then run the main loop.  Returns none when the item list is empty
(the Python constructor raises IndexError on sorted_items[0]). -/
def bbRun (rand : Nat → Bool) (capacity : Int) (items : List Item) :
    Option (Int × List Int) :=
  match items with
  | [] => none
  | i0 :: _ =>
    let dummy : BSel := ⟨-1, 0, capacity, (capacity : Rat) * i0.density, []⟩
    let st0 := expand_and_enqueue rand items ⟨[], [], dummy, 0⟩ dummy
    bbLoop rand items (bbFuel capacity items) st0

/-- The bb_solver entry point of bb_solver.py; its _greedy_value argument
is ignored. -/
def bb_solver (rand : Nat → Bool) (_greedyValue : Int) (capacity : Int)
    (items : List Item) : Option (Int × List Int) :=
  bbRun rand capacity items

/-! ## Instance well-formedness and search invariants -/

/-- A well-formed density-sorted input as produced by solver.py:
non-negative integer values, positive integer weights, density equal to
value / weight, and non-increasing density order. -/
def ItemsWF (items : List Item) : Prop :=
  (∀ it ∈ items, 0 ≤ it.value ∧ 0 < it.weight ∧
    it.density = (it.value : Rat) / (it.weight : Rat)) ∧
  items.Pairwise fun a b => b.density ≤ a.density

/-- A dynamic_prog queue selection at a column is the bookkeeping of a
choice vector over the first col items, with non-negative room. -/
def DSelInv (cap : Int) (items : List Item) (col : Nat) (s : DSel) : Prop :=
  0 ≤ s.room ∧ ∃ bs : List Bool, bs.length = col ∧ s.value = sumV bs items ∧
    s.room = cap - sumW bs items ∧ s.itemsTaken = trueIdxsZ 0 bs

/-- The stored bound of a column-col queue selection is its fractional
relaxation bound through the density of the next undecided item. -/
def DSelBound (items : List Item) (col : Nat) (s : DSel) : Prop :=
  s.maxValue = (s.value : Rat) + (s.room : Rat) * headDensity (items.drop col)

/-- The running best of dynamic_prog: the untouched greedy seed or the
bookkeeping of a feasible choice vector. -/
def BestInv (greedy cap : Int) (items : List Item) (b : DSel) : Prop :=
  (b.value = greedy ∧ b.itemsTaken = []) ∨
  ∃ bs : List Bool, b.value = sumV bs items ∧ sumW bs items ≤ cap ∧
    b.itemsTaken = trueIdxsZ 0 bs

/-- The columns of dynamic_prog pop selections in order of non-increasing
room. -/
def RoomSorted (q : List DSel) : Prop := q.Pairwise fun a b => b.room ≤ a.room

/-- The best value a column-col queue selection can still reach using the
undecided items. -/
def covD (items : List Item) (col : Nat) (s : DSel) : Int :=
  s.value + bestFuture s.room (items.drop col)

/-- A value is covered by the dynamic_prog search state when the running
best already reaches it or some queued selection can still reach it. -/
def CoveredD (items : List Item) (col : Nat) (q : List DSel) (b : DSel)
    (x : Int) : Prop :=
  x ≤ b.value ∨ ∃ t ∈ q, x ≤ covD items col t

/-- Soundness of the running column dominance filter of dynamic_prog: any
state the filter would skip is already covered by the new queue or the
running best. -/
def ColSound (items : List Item) (col : Nat) (item : Item) (cbv : Int)
    (cbm : Rat) (rbound : Int) (q : List DSel) (b : DSel) : Prop :=
  ∀ v r : Int, 0 ≤ v → 0 ≤ r → r ≤ rbound →
    (v < cbv ∨ (v = cbv ∧ (v : Rat) + (r : Rat) * item.density ≤ cbm)) →
    CoveredD items (col + 1) q b (v + bestFuture r (items.drop col))

/-- The best value a bb_solver frontier selection can still reach using
the items after its sorted index. -/
def covB (items : List Item) (t : BSel) : Int :=
  t.value + bestFuture t.room (items.drop (t.sortedIndex.toNat + 1))

/-- A value is covered by the bb_solver search state when the best
selection reaches it or some frontier selection deeper than index J can
still reach it. -/
def CoveredB (items : List Item) (fr : List BSel) (b : BSel) (J : Int)
    (x : Int) : Prop :=
  x ≤ b.value ∨ ∃ t ∈ fr, J < t.sortedIndex ∧ x ≤ covB items t

/-- A bb_solver selection is the bookkeeping of a choice vector over the
first k items. -/
def BSelBs (cap : Int) (items : List Item) (k : Nat) (s : BSel) : Prop :=
  ∃ bs : List Bool, bs.length = k ∧ s.value = sumV bs items ∧
    s.room = cap - sumW bs items ∧ s.takenSorted = trueIdxsZ 0 bs

/-- Invariant of every selection on the bb_solver frontier. -/
def FrSel (cap : Int) (items : List Item) (s : BSel) : Prop :=
  0 ≤ s.sortedIndex ∧ s.sortedIndex + 1 < (items.length : Int) ∧ 0 ≤ s.room ∧
  s.maxValue = (s.value : Rat) + (s.room : Rat) *
    headDensity (items.drop (s.sortedIndex.toNat + 1)) ∧
  BSelBs cap items (s.sortedIndex.toNat + 1) s

/-- Invariant of every entry of the bb_solver expanded table. -/
def ExpEntry (cap : Int) (items : List Item) (e : Int × Int × Int) : Prop :=
  0 ≤ e.1 ∧ e.1 < (items.length : Int) ∧ 0 ≤ e.2.2 ∧
  ∃ bs : List Bool, (bs.length : Int) = e.1 + 1 ∧ e.2.1 = sumV bs items ∧
    e.2.2 = cap - sumW bs items

/-- Invariant of the bb_solver best selection: bookkeeping of a feasible
choice vector. -/
def BestB (cap : Int) (items : List Item) (b : BSel) : Prop :=
  ∃ bs : List Bool, b.value = sumV bs items ∧ sumW bs items ≤ cap ∧
    b.takenSorted = trueIdxsZ 0 bs

/-- The full loop invariant of bb_solver. -/
structure BBInv (cap : Int) (items : List Item) (st : BBState) : Prop where
  fr : ∀ s ∈ st.frontier, FrSel cap items s
  ex : ∀ e ∈ st.expanded, ExpEntry cap items e
  nd : st.expanded.Nodup
  bo : BestB cap items st.best
  ac : ∀ e ∈ st.expanded, CoveredB items st.frontier st.best e.1
        (e.2.1 + bestFuture e.2.2 (items.drop (e.1.toNat + 1)))
  cov : CoveredB items st.frontier st.best (-1) (bestFuture cap items)

/-- Termination measure of the bb_solver loop: expansions are bounded by
the number of distinct reachable table triples, pops by the frontier. -/
def bbMeasure (cap : Int) (items : List Item) (st : BBState) : Nat :=
  2 * ((allTriples cap items).length - st.expanded.length) + st.frontier.length

/-! ## Facts about the exhaustive search and choice vectors -/

theorem sumV_nil (items : List Item) : sumV [] items = 0 := by cases items <;> rfl

theorem sumV_nil_right (bs : List Bool) : sumV bs [] = 0 := by cases bs <;> rfl

theorem sumV_cons (b : Bool) (bs : List Bool) (it : Item) (its : List Item) :
    sumV (b :: bs) (it :: its) = (if b then it.value else 0) + sumV bs its := rfl

theorem sumW_nil (items : List Item) : sumW [] items = 0 := by cases items <;> rfl

theorem sumW_nil_right (bs : List Bool) : sumW bs [] = 0 := by cases bs <;> rfl

theorem sumW_cons (b : Bool) (bs : List Bool) (it : Item) (its : List Item) :
    sumW (b :: bs) (it :: its) = (if b then it.weight else 0) + sumW bs its := rfl

theorem sumV_cons_true (bs : List Bool) (it : Item) (its : List Item) :
    sumV (true :: bs) (it :: its) = it.value + sumV bs its := rfl

theorem sumV_cons_false (bs : List Bool) (it : Item) (its : List Item) :
    sumV (false :: bs) (it :: its) = 0 + sumV bs its := rfl

theorem sumW_cons_true (bs : List Bool) (it : Item) (its : List Item) :
    sumW (true :: bs) (it :: its) = it.weight + sumW bs its := rfl

theorem sumW_cons_false (bs : List Bool) (it : Item) (its : List Item) :
    sumW (false :: bs) (it :: its) = 0 + sumW bs its := rfl

theorem trueIdxsZ_cons_true (k : Int) (bs : List Bool) :
    trueIdxsZ k (true :: bs) = k :: trueIdxsZ (k + 1) bs := rfl

theorem trueIdxsZ_cons_false (k : Int) (bs : List Bool) :
    trueIdxsZ k (false :: bs) = trueIdxsZ (k + 1) bs := rfl

theorem sumV_nonneg {items : List Item} (hv : ∀ it ∈ items, 0 ≤ it.value) :
    ∀ bs : List Bool, 0 ≤ sumV bs items := by
  intro bs
  induction bs generalizing items with
  | nil => simp [sumV_nil]
  | cons b bs ih =>
    cases items with
    | nil => simp [sumV_nil_right]
    | cons it its =>
      have h1 : 0 ≤ it.value := hv it (List.mem_cons_self it its)
      have h2 : 0 ≤ sumV bs its := ih fun x hx => hv x (List.mem_cons_of_mem _ hx)
      cases b
      · rw [sumV_cons_false]; omega
      · rw [sumV_cons_true]; omega

theorem sumW_nonneg {items : List Item} (hw : ∀ it ∈ items, 0 ≤ it.weight) :
    ∀ bs : List Bool, 0 ≤ sumW bs items := by
  intro bs
  induction bs generalizing items with
  | nil => simp [sumW_nil]
  | cons b bs ih =>
    cases items with
    | nil => simp [sumW_nil_right]
    | cons it its =>
      have h1 : 0 ≤ it.weight := hw it (List.mem_cons_self it its)
      have h2 : 0 ≤ sumW bs its := ih fun x hx => hw x (List.mem_cons_of_mem _ hx)
      cases b
      · rw [sumW_cons_false]; omega
      · rw [sumW_cons_true]; omega

theorem bestFuture_nonneg (room : Int) (items : List Item)
    (hv : ∀ it ∈ items, 0 ≤ it.value) : 0 ≤ bestFuture room items := by
  induction items generalizing room with
  | nil => simp [bestFuture]
  | cons it rest ih =>
    have h := ih room fun x hx => hv x (List.mem_cons_of_mem _ hx)
    simp only [bestFuture]
    split
    · exact h.trans (le_max_left _ _)
    · exact h

theorem bestFuture_mono (items : List Item) {r1 r2 : Int} (h : r1 ≤ r2) :
    bestFuture r1 items ≤ bestFuture r2 items := by
  induction items generalizing r1 r2 with
  | nil => simp [bestFuture]
  | cons it rest ih =>
    simp only [bestFuture]
    by_cases h1 : it.weight ≤ r1
    · rw [if_pos h1, if_pos (h1.trans h)]
      exact max_le_max (ih h) (add_le_add_left (ih (by omega)) _)
    · rw [if_neg h1]
      by_cases h2 : it.weight ≤ r2
      · rw [if_pos h2]
        exact (ih h).trans (le_max_left _ _)
      · rw [if_neg h2]; exact ih h

theorem sumV_le_bestFuture (items : List Item) (bs : List Bool) (room : Int)
    (hv : ∀ it ∈ items, 0 ≤ it.value) (hw : ∀ it ∈ items, 0 ≤ it.weight)
    (h : sumW bs items ≤ room) : sumV bs items ≤ bestFuture room items := by
  induction items generalizing bs room with
  | nil => simp [sumV_nil_right, bestFuture]
  | cons it rest ih =>
    have hv2 : ∀ x ∈ rest, 0 ≤ x.value := fun x hx => hv x (List.mem_cons_of_mem _ hx)
    have hw2 : ∀ x ∈ rest, 0 ≤ x.weight := fun x hx => hw x (List.mem_cons_of_mem _ hx)
    cases bs with
    | nil =>
      rw [sumV_nil]
      exact bestFuture_nonneg room (it :: rest) hv
    | cons b bs =>
      cases b
      · rw [sumV_cons_false]
        rw [sumW_cons_false] at h
        have hle := ih bs room hv2 hw2 (by omega)
        simp only [bestFuture]
        split
        · exact le_trans (by omega) (hle.trans (le_max_left _ _))
        · omega
      · rw [sumV_cons_true]
        rw [sumW_cons_true] at h
        have hws : 0 ≤ sumW bs rest := sumW_nonneg hw2 bs
        have hwr : it.weight ≤ room := by omega
        simp only [bestFuture]
        rw [if_pos hwr]
        have hle := ih bs (room - it.weight) hv2 hw2 (by omega)
        have hstep : it.value + sumV bs rest ≤
            it.value + bestFuture (room - it.weight) rest := by omega
        exact hstep.trans (le_max_right _ _)

theorem bestFuture_achieved (items : List Item) (room : Int) (h : 0 ≤ room) :
    ∃ bs : List Bool, bs.length = items.length ∧ sumW bs items ≤ room ∧
      sumV bs items = bestFuture room items := by
  induction items generalizing room with
  | nil => exact ⟨[], rfl, by simpa [sumW_nil], by simp [sumV_nil, bestFuture]⟩
  | cons it rest ih =>
    by_cases hw : it.weight ≤ room
    · obtain ⟨bs1, hl1, hw1, hv1⟩ := ih room h
      obtain ⟨bs2, hl2, hw2, hv2⟩ := ih (room - it.weight) (by omega)
      by_cases hc : it.value + bestFuture (room - it.weight) rest ≤ bestFuture room rest
      · refine ⟨false :: bs1, by simp [hl1], ?_, ?_⟩
        · rw [sumW_cons_false]; omega
        · rw [sumV_cons_false]
          simp only [bestFuture, if_pos hw]
          omega
      · refine ⟨true :: bs2, by simp [hl2], ?_, ?_⟩
        · rw [sumW_cons_true]; omega
        · rw [sumV_cons_true]
          simp only [bestFuture, if_pos hw]
          omega
    · obtain ⟨bs1, hl1, hw1, hv1⟩ := ih room h
      refine ⟨false :: bs1, by simp [hl1], ?_, ?_⟩
      · rw [sumW_cons_false]; omega
      · rw [sumV_cons_false]
        simp only [bestFuture, if_neg hw]
        omega

theorem bestFuture_le_density (items : List Item) (room : Int) (d : Rat)
    (hd : 0 ≤ d)
    (hitems : ∀ it ∈ items, 0 ≤ it.value ∧ 0 < it.weight ∧
      (it.value : Rat) ≤ d * (it.weight : Rat))
    (hr : 0 ≤ room) :
    ((bestFuture room items : Int) : Rat) ≤ d * (room : Rat) := by
  induction items generalizing room with
  | nil =>
    simp only [bestFuture, Int.cast_zero]
    exact mul_nonneg hd (by exact_mod_cast hr)
  | cons it rest ih =>
    have hrec : ∀ r : Int, 0 ≤ r → ((bestFuture r rest : Int) : Rat) ≤ d * (r : Rat) :=
      fun r hr0 => ih r (fun x hx => hitems x (List.mem_cons_of_mem _ hx)) hr0
    obtain ⟨hv0, hw0, hvd⟩ := hitems it (List.mem_cons_self it rest)
    simp only [bestFuture]
    by_cases hw : it.weight ≤ room
    · rw [if_pos hw]
      rw [Int.cast_max]
      apply max_le
      · exact hrec room hr
      · have h2 := hrec (room - it.weight) (by omega)
        push_cast at h2 ⊢
        nlinarith [h2, hvd]
    · rw [if_neg hw]
      exact hrec room hr

/-! ## List indexing and drop helpers -/

theorem drop_eq_getD_cons {l : List Item} {k : Nat} (h : k < l.length) :
    l.drop k = l.getD k defaultItem :: l.drop (k + 1) := by
  induction l generalizing k with
  | nil => simp at h
  | cons x xs ih =>
    cases k with
    | zero => simp [List.getD]
    | succ k =>
      simp only [List.length_cons, Nat.succ_lt_succ_iff] at h
      simpa [List.getD_cons_succ] using ih h

theorem getD_eq_default_of_len_le {l : List Item} {k : Nat} (h : l.length ≤ k) :
    l.getD k defaultItem = defaultItem := by
  rw [List.getD_eq_getElem?_getD, List.getElem?_eq_none h]
  rfl

/-! ## Sums of extended choice vectors -/

theorem sumV_append (items : List Item) (bs : List Bool) (b : Bool) :
    sumV (bs ++ [b]) items =
      sumV bs items + (if b then (items.getD bs.length defaultItem).value else 0) := by
  induction bs generalizing items with
  | nil =>
    cases items with
    | nil => cases b <;> simp [sumV_nil, sumV_nil_right, defaultItem, List.getD]
    | cons it its =>
      rw [List.nil_append, sumV_nil]
      show sumV [b] (it :: its) = _
      rw [sumV_cons, sumV_nil]
      simp [List.getD]
  | cons b0 bs ih =>
    cases items with
    | nil => simp [sumV_nil_right, defaultItem, getD_eq_default_of_len_le]
    | cons it its =>
      rw [List.cons_append, sumV_cons, sumV_cons, ih its]
      simp only [List.length_cons, List.getD_cons_succ]
      omega

theorem sumW_append (items : List Item) (bs : List Bool) (b : Bool) :
    sumW (bs ++ [b]) items =
      sumW bs items + (if b then (items.getD bs.length defaultItem).weight else 0) := by
  induction bs generalizing items with
  | nil =>
    cases items with
    | nil => cases b <;> simp [sumW_nil, sumW_nil_right, defaultItem, List.getD]
    | cons it its =>
      rw [List.nil_append, sumW_nil]
      show sumW [b] (it :: its) = _
      rw [sumW_cons, sumW_nil]
      simp [List.getD]
  | cons b0 bs ih =>
    cases items with
    | nil => simp [sumW_nil_right, defaultItem, getD_eq_default_of_len_le]
    | cons it its =>
      rw [List.cons_append, sumW_cons, sumW_cons, ih its]
      simp only [List.length_cons, List.getD_cons_succ]
      omega

theorem trueIdxsZ_append (k : Int) (bs : List Bool) (b : Bool) :
    trueIdxsZ k (bs ++ [b]) =
      trueIdxsZ k bs ++ (if b then [k + (bs.length : Int)] else []) := by
  induction bs generalizing k with
  | nil => cases b <;> simp [trueIdxsZ]
  | cons b0 bs ih =>
    have harith : k + 1 + (bs.length : Int) = k + ((bs.length + 1 : Nat) : Int) := by
      push_cast; ring
    cases b0
    · rw [List.cons_append, trueIdxsZ_cons_false, trueIdxsZ_cons_false, ih (k + 1),
        harith]
      simp
    · rw [List.cons_append, trueIdxsZ_cons_true, trueIdxsZ_cons_true, ih (k + 1),
        harith]
      simp

/-! ## Converting taken index lists back to choice vector sums -/

theorem takenValue_trueIdxsZ (items : List Item) :
    ∀ (bs : List Bool) (k : Nat),
      takenValue items (trueIdxsZ (k : Int) bs) = sumV bs (items.drop k) := by
  intro bs
  induction bs with
  | nil => intro k; simp [takenValue, trueIdxsZ, sumV_nil]
  | cons b bs ih =>
    intro k
    have hk1 : ((k : Int) + 1) = ((k + 1 : Nat) : Int) := by push_cast; ring
    have ihk := ih (k + 1)
    by_cases hk : k < items.length
    · rw [drop_eq_getD_cons hk]
      cases b
      · rw [trueIdxsZ_cons_false, hk1, ihk, sumV_cons_false]
        omega
      · rw [trueIdxsZ_cons_true, hk1, sumV_cons_true]
        simp only [takenValue, List.map_cons, List.sum_cons]
        rw [Int.toNat_natCast]
        simp only [takenValue] at ihk
        omega
    · have hd : items.drop k = [] := List.drop_eq_nil_of_le (by omega)
      have hd1 : items.drop (k + 1) = [] := List.drop_eq_nil_of_le (by omega)
      have hgd : items.getD k defaultItem = defaultItem :=
        getD_eq_default_of_len_le (by omega)
      rw [hd1] at ihk
      cases b
      · rw [trueIdxsZ_cons_false, hk1, ihk, hd]
        simp [sumV_nil_right]
      · rw [trueIdxsZ_cons_true, hk1, hd]
        simp only [takenValue, List.map_cons, List.sum_cons, sumV_nil_right]
        rw [Int.toNat_natCast, hgd]
        simp only [takenValue] at ihk
        rw [sumV_nil_right] at ihk
        rw [ihk]
        simp [defaultItem]

theorem takenWeight_trueIdxsZ (items : List Item) :
    ∀ (bs : List Bool) (k : Nat),
      takenWeight items (trueIdxsZ (k : Int) bs) = sumW bs (items.drop k) := by
  intro bs
  induction bs with
  | nil => intro k; simp [takenWeight, trueIdxsZ, sumW_nil]
  | cons b bs ih =>
    intro k
    have hk1 : ((k : Int) + 1) = ((k + 1 : Nat) : Int) := by push_cast; ring
    have ihk := ih (k + 1)
    by_cases hk : k < items.length
    · rw [drop_eq_getD_cons hk]
      cases b
      · rw [trueIdxsZ_cons_false, hk1, ihk, sumW_cons_false]
        omega
      · rw [trueIdxsZ_cons_true, hk1, sumW_cons_true]
        simp only [takenWeight, List.map_cons, List.sum_cons]
        rw [Int.toNat_natCast]
        simp only [takenWeight] at ihk
        omega
    · have hd : items.drop k = [] := List.drop_eq_nil_of_le (by omega)
      have hd1 : items.drop (k + 1) = [] := List.drop_eq_nil_of_le (by omega)
      have hgd : items.getD k defaultItem = defaultItem :=
        getD_eq_default_of_len_le (by omega)
      rw [hd1] at ihk
      cases b
      · rw [trueIdxsZ_cons_false, hk1, ihk, hd]
        simp [sumW_nil_right]
      · rw [trueIdxsZ_cons_true, hk1, hd]
        simp only [takenWeight, List.map_cons, List.sum_cons, sumW_nil_right]
        rw [Int.toNat_natCast, hgd]
        simp only [takenWeight] at ihk
        rw [sumW_nil_right] at ihk
        rw [ihk]
        simp [defaultItem]

/-! ## The sorted output is a permutation of the taken list -/

theorem insInt_perm (a : Int) (l : List Int) : List.Perm (insInt a l) (a :: l) := by
  induction l with
  | nil => exact List.Perm.refl _
  | cons b bs ih =>
    simp only [insInt]
    split
    · exact List.Perm.refl _
    · exact (ih.cons b).trans (List.Perm.swap a b bs)

theorem sortedInts_perm (l : List Int) : List.Perm (sortedInts l) l := by
  induction l with
  | nil => exact List.Perm.refl _
  | cons a as_ ih =>
    exact (insInt_perm a (sortedInts as_)).trans (ih.cons a)

theorem takenWeight_sortedInts (items : List Item) (l : List Int) :
    takenWeight items (sortedInts l) = takenWeight items l :=
  ((sortedInts_perm l).map _).sum_eq

theorem takenValue_sortedInts (items : List Item) (l : List Int) :
    takenValue items (sortedInts l) = takenValue items l :=
  ((sortedInts_perm l).map _).sum_eq

/-! ## Order lemmas for the tuple comparisons -/

theorem lexb_total {α : Type} [LinearOrder α] (x y : α) {r s : Bool}
    (h : r = true ∨ s = true) : lexb x y r = true ∨ lexb y x s = true := by
  unfold lexb
  rcases lt_trichotomy x y with hh | hh | hh
  · left; simp [hh]
  · subst hh; simp only [lt_irrefl, if_false]; exact h
  · right; simp [hh]

theorem lexb_true {α : Type} [LinearOrder α] {x y : α} {r : Bool}
    (h : lexb x y r = true) : x < y ∨ (x = y ∧ r = true) := by
  unfold lexb at h
  rcases lt_trichotomy x y with hh | hh | hh
  · exact Or.inl hh
  · subst hh; simp only [lt_irrefl, if_false] at h; exact Or.inr ⟨rfl, h⟩
  · rw [if_neg (asymm hh), if_pos hh] at h; simp at h

theorem lexb_antisymm {α : Type} [LinearOrder α] {x y : α} {r s : Bool}
    (h1 : lexb x y r = true) (h2 : lexb y x s = true) :
    x = y ∧ r = true ∧ s = true := by
  rcases lexb_true h1 with hh | ⟨he, hr⟩
  · rcases lexb_true h2 with hh2 | ⟨he2, _⟩
    · exact absurd hh2 (asymm hh)
    · rw [he2] at hh; exact absurd hh (lt_irrefl x)
  · rcases lexb_true h2 with hh2 | ⟨_, hs⟩
    · rw [he] at hh2; exact absurd hh2 (lt_irrefl y)
    · exact ⟨he, hr, hs⟩

theorem listLe_total (a b : List Int) : listLe a b = true ∨ listLe b a = true := by
  induction a generalizing b with
  | nil => left; rfl
  | cons x xs ih =>
    cases b with
    | nil => right; rfl
    | cons y ys => exact lexb_total x y (ih ys)

theorem listLe_antisymm {a b : List Int} (h1 : listLe a b = true)
    (h2 : listLe b a = true) : a = b := by
  induction a generalizing b with
  | nil => cases b with
    | nil => rfl
    | cons y ys => exact absurd h2 (by simp [listLe])
  | cons x xs ih =>
    cases b with
    | nil => exact absurd h1 (by simp [listLe])
    | cons y ys =>
      obtain ⟨he, hr, hs⟩ := lexb_antisymm h1 h2
      rw [he, ih hr hs]

theorem dselLe_total (a b : DSel) : dselLe a b = true ∨ dselLe b a = true := by
  unfold dselLe
  exact lexb_total _ _ (lexb_total _ _ (lexb_total _ _ (lexb_total _ _
    (listLe_total _ _))))

theorem dselLe_room {a b : DSel} (h : dselLe a b = true) : b.room ≤ a.room := by
  unfold dselLe at h
  rcases lexb_true h with hh | ⟨he, _⟩ <;> omega

theorem bselLe_total (a b : BSel) : bselLe a b = true ∨ bselLe b a = true := by
  unfold bselLe
  exact lexb_total _ _ (lexb_total _ _ (lexb_total _ _ (lexb_total _ _
    (listLe_total _ _))))

theorem bselLe_antisymm {a b : BSel} (h1 : bselLe a b = true)
    (h2 : bselLe b a = true) : a = b := by
  unfold bselLe at h1 h2
  obtain ⟨e1, h1, h2⟩ := lexb_antisymm h1 h2
  obtain ⟨e2, h1, h2⟩ := lexb_antisymm h1 h2
  obtain ⟨e3, h1, h2⟩ := lexb_antisymm h1 h2
  obtain ⟨e4, h1, h2⟩ := lexb_antisymm h1 h2
  have e5 := listLe_antisymm h1 h2
  cases a; cases b; simp_all

/-! ## The random child-push order is immaterial -/

theorem sortSel_swap (a b : BSel) : sortSel [b, a] = sortSel [a, b] := by
  show insSel b (insSel a []) = insSel a (insSel b [])
  show insSel b [a] = insSel a [b]
  by_cases h1 : bselLe b a = true
  · by_cases h2 : bselLe a b = true
    · rw [bselLe_antisymm h2 h1]
    · simp [insSel, h1, h2]
  · by_cases h2 : bselLe a b = true
    · simp [insSel, h1, h2]
    · rcases bselLe_total a b with h | h
      · exact absurd h h2
      · exact absurd h h1

theorem sortSel_reverse_le_two (l : List BSel) (h : l.length ≤ 2) :
    sortSel l.reverse = sortSel l := by
  rcases l with _ | ⟨a, _ | ⟨b, _ | ⟨c, t⟩⟩⟩
  · rfl
  · rfl
  · simpa using sortSel_swap a b
  · simp at h

theorem orderedPush_bit (bit : Bool) (news : List BSel) (h : news.length ≤ 2) :
    orderedPush bit news = orderedPush true news := by
  cases bit
  · unfold orderedPush
    rw [if_neg (by simp), if_pos rfl, sortSel_reverse_le_two news h]
  · rfl

theorem newSelections_length_le_two (items : List Item) (s best : BSel) :
    (newSelections items s best).length ≤ 2 := by
  unfold newSelections
  simpa using List.length_filter_le _ _

theorem expand_and_enqueue_rand (r1 r2 : Nat → Bool) (items : List Item)
    (st : BBState) (s : BSel) :
    expand_and_enqueue r1 items st s = expand_and_enqueue r2 items st s := by
  have h1 := orderedPush_bit (r1 st.rk) (newSelections items s st.best)
    (newSelections_length_le_two items s st.best)
  have h2 := orderedPush_bit (r2 st.rk) (newSelections items s st.best)
    (newSelections_length_le_two items s st.best)
  simp only [expand_and_enqueue, h1, h2]

theorem bbLoop_rand (r1 r2 : Nat → Bool) (items : List Item) :
    ∀ (fuel : Nat) (st : BBState),
    bbLoop r1 items fuel st = bbLoop r2 items fuel st := by
  intro fuel
  induction fuel with
  | zero => intro st; rfl
  | succ fuel ih =>
    intro st
    unfold bbLoop
    simp only [expand_and_enqueue_rand r1 r2, ih]

theorem bbRun_rand (r1 r2 : Nat → Bool) (capacity : Int) (items : List Item) :
    bbRun r1 capacity items = bbRun r2 capacity items := by
  unfold bbRun
  simp only [expand_and_enqueue_rand r1 r2, bbLoop_rand r1 r2]


/-! ## Well-formedness consequences -/

theorem ItemsWF.drop {items : List Item} (h : ItemsWF items) (k : Nat) :
    ItemsWF (items.drop k) :=
  ⟨fun it hit => h.1 it ((List.drop_sublist k items).subset hit),
    List.Pairwise.sublist (List.drop_sublist k items) h.2⟩

theorem ItemsWF.tail_of_cons {it : Item} {rest : List Item}
    (h : ItemsWF (it :: rest)) : ItemsWF rest :=
  ⟨fun x hx => h.1 x (List.mem_cons_of_mem _ hx), (List.pairwise_cons.mp h.2).2⟩

theorem density_nonneg {items : List Item} (h : ItemsWF items) {it : Item}
    (hit : it ∈ items) : 0 ≤ it.density := by
  obtain ⟨hv, hw, hd⟩ := h.1 it hit
  rw [hd]
  have h1 : (0 : Rat) ≤ it.value := by exact_mod_cast hv
  have h2 : (0 : Rat) < it.weight := by exact_mod_cast hw
  exact div_nonneg h1 h2.le

theorem value_le_density_mul {items : List Item} (h : ItemsWF items) {it : Item}
    (hit : it ∈ items) {d : Rat} (hd : it.density ≤ d) :
    (it.value : Rat) ≤ d * (it.weight : Rat) := by
  obtain ⟨hv, hw, hde⟩ := h.1 it hit
  have hwpos : (0 : Rat) < it.weight := by exact_mod_cast hw
  rw [hde] at hd
  have := (div_le_iff₀ hwpos).mp hd
  linarith

theorem density_le_headDensity {l : List Item}
    (h : l.Pairwise fun a b => b.density ≤ a.density) {it : Item}
    (hit : it ∈ l) : it.density ≤ headDensity l := by
  cases l with
  | nil => cases hit
  | cons x xs =>
    rcases List.mem_cons.mp hit with rfl | hm
    · exact le_refl _
    · exact (List.pairwise_cons.mp h).1 it hm

theorem headDensity_nonneg {l : List Item} (h : ItemsWF l) : 0 ≤ headDensity l := by
  cases l with
  | nil => exact le_refl 0
  | cons x xs => exact density_nonneg h (List.mem_cons_self x xs)

theorem bestFuture_le_headDensity {l : List Item} (h : ItemsWF l) {room : Int}
    (hr : 0 ≤ room) :
    ((bestFuture room l : Int) : Rat) ≤ headDensity l * (room : Rat) :=
  bestFuture_le_density l room (headDensity l) (headDensity_nonneg h)
    (fun it hit => ⟨(h.1 it hit).1, (h.1 it hit).2.1,
      value_le_density_mul h hit (density_le_headDensity h.2 hit)⟩) hr

/-! ## The pruning predicates -/

theorem too_heavy_false_iff (s : BSel) : too_heavy s = false ↔ 0 ≤ s.room := by
  simp only [too_heavy, decide_eq_false_iff_not]
  omega

theorem too_small_iff (s best : BSel) :
    too_small s best = true ↔
      (s.maxValue < (best.value : Rat) ∨
        (s.maxValue = (best.value : Rat) ∧ best.sortedIndex ≤ s.sortedIndex)) := by
  simp [too_small]

theorem too_small_le {s best : BSel} (h : too_small s best = true) :
    s.maxValue ≤ (best.value : Rat) := by
  rcases (too_small_iff s best).mp h with h | ⟨h, _⟩
  · exact le_of_lt h
  · exact le_of_eq h

theorem mem_newSelections {items : List Item} {s best c : BSel}
    (h : c ∈ newSelections items s best) :
    too_heavy c = false ∧ too_small c best = false ∧
      c.sortedIndex = s.sortedIndex + 1 := by
  unfold newSelections at h
  rw [List.mem_filter] at h
  obtain ⟨hmem, hpred⟩ := h
  rw [Bool.and_eq_true, Bool.not_eq_true', Bool.not_eq_true'] at hpred
  refine ⟨hpred.1, hpred.2, ?_⟩
  simp only [List.mem_cons, List.not_mem_nil, or_false] at hmem
  rcases hmem with h1 | h1 <;> rw [h1] <;> rfl

theorem newSelections_room {items : List Item} {s best c : BSel}
    (h : c ∈ newSelections items s best) : 0 ≤ c.room :=
  (too_heavy_false_iff c).mp (mem_newSelections h).1

/-! ## Queue insertion -/

theorem qinsert_mem_iff {s : DSel} {l : List DSel} {x : DSel} :
    x ∈ qinsert s l ↔ x = s ∨ x ∈ l := by
  induction l with
  | nil => simp [qinsert]
  | cons t ts ih =>
    simp only [qinsert]
    split
    · simp [or_comm, or_assoc, or_left_comm]
    · simp only [List.mem_cons, ih]
      tauto

theorem qinsert_roomSorted {s : DSel} {l : List DSel} (h : RoomSorted l) :
    RoomSorted (qinsert s l) := by
  induction l with
  | nil => simp [qinsert, RoomSorted]
  | cons t ts ih =>
    simp only [qinsert]
    split
    · rename_i hst
      have hts : t.room ≤ s.room := dselLe_room hst
      have hpair := List.pairwise_cons.mp h
      refine List.pairwise_cons.mpr ⟨?_, h⟩
      intro y hy
      rcases List.mem_cons.mp hy with rfl | hm
      · exact hts
      · exact (hpair.1 y hm).trans hts
    · rename_i hst
      have hts : s.room ≤ t.room := by
        rcases dselLe_total s t with hh | hh
        · exact absurd hh hst
        · exact dselLe_room hh
      have hpair := List.pairwise_cons.mp h
      refine List.pairwise_cons.mpr ⟨?_, ih hpair.2⟩
      intro y hy
      rcases qinsert_mem_iff.mp hy with rfl | hm
      · exact hts
      · exact hpair.1 y hm


/-! ## Extending a choice vector by one decision -/

theorem sumV_append_true (items : List Item) (bs : List Bool) :
    sumV (bs ++ [true]) items =
      sumV bs items + (items.getD bs.length defaultItem).value := by
  rw [sumV_append]; simp

theorem sumV_append_false (items : List Item) (bs : List Bool) :
    sumV (bs ++ [false]) items = sumV bs items := by
  rw [sumV_append]; simp

theorem sumW_append_true (items : List Item) (bs : List Bool) :
    sumW (bs ++ [true]) items =
      sumW bs items + (items.getD bs.length defaultItem).weight := by
  rw [sumW_append]; simp

theorem sumW_append_false (items : List Item) (bs : List Bool) :
    sumW (bs ++ [false]) items = sumW bs items := by
  rw [sumW_append]; simp

theorem trueIdxsZ_append_true (k : Int) (bs : List Bool) :
    trueIdxsZ k (bs ++ [true]) = trueIdxsZ k bs ++ [k + (bs.length : Int)] := by
  rw [trueIdxsZ_append]; simp

theorem trueIdxsZ_append_false (k : Int) (bs : List Bool) :
    trueIdxsZ k (bs ++ [false]) = trueIdxsZ k bs := by
  rw [trueIdxsZ_append]; simp

theorem getD_of_drop_cons {items tl : List Item} {k : Nat} {it : Item}
    (h : items.drop k = it :: tl) :
    items.getD k defaultItem = it ∧ items.drop (k + 1) = tl := by
  have hk : k < items.length := by
    by_contra hh
    rw [List.drop_eq_nil_of_le (by omega)] at h
    cases h
  have h2 := drop_eq_getD_cons hk
  rw [h] at h2
  injection h2 with ha hb
  exact ⟨ha.symm, hb.symm⟩

/-! ## Invariants of the dynamic_prog children -/

theorem DSelInv_decline {cap : Int} {items : List Item} {col : Nat} {s : DSel}
    (futd : Rat) (h : DSelInv cap items col s) :
    DSelInv cap items (col + 1) (dpDecline s futd) := by
  obtain ⟨hroom, bs, hlen, hv, hr, ht⟩ := h
  refine ⟨hroom, bs ++ [false], by simp [hlen], ?_, ?_, ?_⟩
  · rw [sumV_append_false]; exact hv
  · rw [sumW_append_false]; exact hr
  · rw [trueIdxsZ_append_false]; exact ht

theorem DSelInv_take {cap : Int} {items : List Item} {col : Nat} {s : DSel}
    {item : Item} {tl : List Item} (futd : Rat)
    (hcol : items.drop col = item :: tl) (h : DSelInv cap items col s)
    (hroom : 0 ≤ (dpTake s item futd (col : Int)).room) :
    DSelInv cap items (col + 1) (dpTake s item futd (col : Int)) := by
  obtain ⟨_, bs, hlen, hv, hr, ht⟩ := h
  have hgd := (getD_of_drop_cons hcol).1
  refine ⟨hroom, bs ++ [true], by simp [hlen], ?_, ?_, ?_⟩
  · show s.value + item.value = sumV (bs ++ [true]) items
    rw [sumV_append_true, hlen, hgd, hv]
  · show s.room - item.weight = cap - sumW (bs ++ [true]) items
    rw [sumW_append_true, hlen, hgd]
    omega
  · show s.itemsTaken ++ [(col : Int)] = trueIdxsZ 0 (bs ++ [true])
    rw [trueIdxsZ_append_true, hlen, ht]
    simp

theorem BestInv_of_DSelInv {greedy cap : Int} {items : List Item} {col : Nat}
    {s : DSel} (h : DSelInv cap items col s) : BestInv greedy cap items s := by
  obtain ⟨hroom, bs, hlen, hv, hr, ht⟩ := h
  exact Or.inr ⟨bs, hv, by omega, ht⟩

/-! ## Feasibility through the dynamic_prog loops -/

theorem dpInner_feas (item : Item) (futd : Rat) (cap : Int) (items : List Item)
    (col : Nat) (tl : List Item) (hcol : items.drop col = item :: tl)
    (greedy : Int) :
    ∀ (prev : List DSel) (cbv : Int) (cbm : Rat) (q : List DSel) (best : DSel),
    (∀ s ∈ prev, DSelInv cap items col s) →
    (∀ s ∈ q, DSelInv cap items (col + 1) s) →
    BestInv greedy cap items best →
    (∀ s ∈ (dpInner item futd (col : Int) prev cbv cbm q best).1,
        DSelInv cap items (col + 1) s) ∧
    BestInv greedy cap items (dpInner item futd (col : Int) prev cbv cbm q best).2 := by
  intro prev
  induction prev with
  | nil =>
    intro cbv cbm q best _ hq hb
    exact ⟨hq, hb⟩
  | cons s rest ih =>
    intro cbv cbm q best hprev hq hb
    have hs := hprev s (List.mem_cons_self s rest)
    have hrest : ∀ x ∈ rest, DSelInv cap items col x :=
      fun x hx => hprev x (List.mem_cons_of_mem _ hx)
    have hq1 : ∀ x ∈ (if (best.value : Rat) < (dpDecline s futd).maxValue then
        qinsert (dpDecline s futd) q else q), DSelInv cap items (col + 1) x := by
      split
      · intro x hx
        rcases qinsert_mem_iff.mp hx with rfl | hm
        · exact DSelInv_decline futd hs
        · exact hq x hm
      · exact hq
    by_cases hskip : s.value < cbv ∨ (s.value = cbv ∧ s.maxValue ≤ cbm)
    · simp only [dpInner, if_pos hskip]
      exact ih cbv cbm q best hrest hq hb
    · simp only [dpInner, if_neg hskip]
      by_cases htake : (best.value : Rat) < (dpTake s item futd (col : Int)).maxValue ∧
          0 ≤ (dpTake s item futd (col : Int)).room
      · rw [if_pos htake]
        apply ih
        · exact hrest
        · intro x hx
          rcases qinsert_mem_iff.mp hx with rfl | hm
          · exact DSelInv_take futd hcol hs htake.2
          · exact hq1 x hm
        · split
          · exact BestInv_of_DSelInv (DSelInv_take futd hcol hs htake.2)
          · exact hb
      · rw [if_neg htake]
        exact ih _ _ _ _ hrest hq1 hb

theorem dpOuter_feas (cap greedy : Int) (items : List Item) :
    ∀ (suffix : List Item) (col : Nat) (queue : List DSel) (best : DSel),
    items.drop col = suffix →
    (∀ s ∈ queue, DSelInv cap items col s) →
    BestInv greedy cap items best →
    BestInv greedy cap items (dpOuter suffix (col : Int) queue best) := by
  intro suffix
  induction suffix with
  | nil =>
    intro col queue best _ _ hb
    exact hb
  | cons it rest ihs =>
    intro col queue best hcol hq hb
    simp only [dpOuter]
    have hfeas := dpInner_feas it (headDensity rest) cap items col rest hcol greedy
      queue 0 0 [] best hq (fun x hx => absurd hx (List.not_mem_nil x)) hb
    have hcol1 : items.drop (col + 1) = rest := (getD_of_drop_cons hcol).2
    have hcast : (col : Int) + 1 = ((col + 1 : Nat) : Int) := by push_cast; ring
    rw [hcast]
    exact ihs (col + 1) _ _ hcol1 hfeas.1 hfeas.2

theorem dpInner_best_le (item : Item) (futd : Rat) (idx : Int) :
    ∀ (prev : List DSel) (cbv : Int) (cbm : Rat) (q : List DSel) (best : DSel),
    best.value ≤ (dpInner item futd idx prev cbv cbm q best).2.value := by
  intro prev
  induction prev with
  | nil => intro cbv cbm q best; exact le_refl _
  | cons s rest ih =>
    intro cbv cbm q best
    by_cases hskip : s.value < cbv ∨ (s.value = cbv ∧ s.maxValue ≤ cbm)
    · simp only [dpInner, if_pos hskip]
      exact ih cbv cbm q best
    · simp only [dpInner, if_neg hskip]
      by_cases htake : (best.value : Rat) < (dpTake s item futd idx).maxValue ∧
          0 ≤ (dpTake s item futd idx).room
      · rw [if_pos htake]
        refine le_trans ?_ (ih _ _ _ _)
        split
        · rename_i hlt; exact le_of_lt hlt
        · exact le_refl _
      · rw [if_neg htake]
        exact ih _ _ _ _

theorem dpOuter_best_le :
    ∀ (suffix : List Item) (idx : Int) (queue : List DSel) (best : DSel),
    best.value ≤ (dpOuter suffix idx queue best).value := by
  intro suffix
  induction suffix with
  | nil => intro idx queue best; exact le_refl _
  | cons it rest ihs =>
    intro idx queue best
    simp only [dpOuter]
    exact le_trans (dpInner_best_le it (headDensity rest) idx queue 0 0 [] best)
      (ihs _ _ _)

theorem dynamic_prog_ge_greedy {greedy cap : Int} {items : List Item}
    {v : Int} {tk : List Int} (h : dynamic_prog greedy cap items = some (v, tk)) :
    greedy ≤ v := by
  cases items with
  | nil => cases h
  | cons i0 rest =>
    simp only [dynamic_prog, Option.some.injEq, Prod.mk.injEq] at h
    have hmono : greedy ≤ (dpOuter (i0 :: rest) 0
        (qinsert ⟨0, cap, (cap : Rat) * i0.density, []⟩ [])
        ⟨greedy, 0, (cap : Rat) * i0.density, []⟩).value :=
      dpOuter_best_le (i0 :: rest) 0 _ _
    omega

theorem dynamic_prog_feasible {greedy cap : Int} {items : List Item}
    (hcap : 0 ≤ cap) {v : Int} {tk : List Int}
    (h : dynamic_prog greedy cap items = some (v, tk)) :
    takenWeight items tk ≤ cap ∧ v = (dpOuter items 0
      (qinsert ⟨0, cap, (cap : Rat) * headDensity items, []⟩ []) 
      ⟨greedy, 0, (cap : Rat) * headDensity items, []⟩).value := by
  cases items with
  | nil => cases h
  | cons i0 rest =>
    simp only [dynamic_prog, Option.some.injEq, Prod.mk.injEq] at h
    have hbase : ∀ s ∈ qinsert (⟨0, cap, (cap : Rat) * i0.density, []⟩ : DSel) [],
        DSelInv cap (i0 :: rest) 0 s := by
      intro s hsx
      rcases qinsert_mem_iff.mp hsx with rfl | hm
      · exact ⟨hcap, [], rfl, rfl, by simp [sumW_nil], rfl⟩
      · cases hm
    have hfin := dpOuter_feas cap greedy (i0 :: rest) (i0 :: rest) 0
      (qinsert ⟨0, cap, (cap : Rat) * i0.density, []⟩ [])
      ⟨greedy, 0, (cap : Rat) * i0.density, []⟩ rfl hbase (Or.inl ⟨rfl, rfl⟩)
    simp only [Nat.cast_zero] at hfin
    rcases hfin with ⟨hval, htk⟩ | ⟨bs, hval, hwle, htk⟩
    · constructor
      · rw [← h.2, htk]
        simpa [takenWeight] using hcap
      · rw [← h.1]; rfl
    · constructor
      · rw [← h.2, htk]
        have := takenWeight_trueIdxsZ (i0 :: rest) bs 0
        simp only [Nat.cast_zero, List.drop_zero] at this
        rw [this]
        exact hwle
      · rw [← h.1]; rfl


/-! ## Characterizing the bb_solver children -/

theorem newSelections_cases {items : List Item} {s best c : BSel}
    (h : c ∈ newSelections items s best) :
    c = bbDecline items s ∨ c = bbTake items s := by
  unfold newSelections at h
  rw [List.mem_filter] at h
  simpa using h.1

theorem bbDecline_sortedIndex (items : List Item) (s : BSel) :
    (bbDecline items s).sortedIndex = s.sortedIndex + 1 := rfl

theorem bbTake_sortedIndex (items : List Item) (s : BSel) :
    (bbTake items s).sortedIndex = s.sortedIndex + 1 := rfl

theorem futDensity_eq {items : List Item} {s : BSel} {k : Nat}
    (hk : (k : Int) = s.sortedIndex + 1) :
    futDensity items s = headDensity (items.drop (k + 1)) := by
  unfold futDensity
  have h2 : (s.sortedIndex + 2).toNat = k + 1 := by omega
  rw [h2]
  by_cases hn : (items.length : Int) ≤ s.sortedIndex + 2
  · rw [if_pos hn, List.drop_eq_nil_of_le (by omega)]
    rfl
  · rw [if_neg hn]
    have hlt : k + 1 < items.length := by omega
    rw [drop_eq_getD_cons hlt]
    rfl

theorem BSelBs_decline {cap : Int} {items : List Item} {k : Nat} {s : BSel}
    (hs : BSelBs cap items k s) :
    BSelBs cap items (k + 1) (bbDecline items s) := by
  obtain ⟨bs, hlen, hv, hr, ht⟩ := hs
  exact ⟨bs ++ [false], by simp [hlen],
    by rw [sumV_append_false]; exact hv,
    by rw [sumW_append_false]; exact hr,
    by rw [trueIdxsZ_append_false]; exact ht⟩

theorem BSelBs_take {cap : Int} {items : List Item} {k : Nat} {s : BSel}
    (hk : (k : Int) = s.sortedIndex + 1) (hs : BSelBs cap items k s) :
    BSelBs cap items (k + 1) (bbTake items s) := by
  obtain ⟨bs, hlen, hv, hr, ht⟩ := hs
  have htn : (s.sortedIndex + 1).toNat = k := by omega
  refine ⟨bs ++ [true], by simp [hlen], ?_, ?_, ?_⟩
  · show s.value + (items.getD (s.sortedIndex + 1).toNat defaultItem).value = _
    rw [htn, sumV_append_true, hlen, hv]
  · show s.room - (items.getD (s.sortedIndex + 1).toNat defaultItem).weight = _
    rw [htn, sumW_append_true, hlen]
    omega
  · show s.takenSorted ++ [s.sortedIndex + 1] = _
    rw [trueIdxsZ_append_true, hlen, ht]
    simp only [List.append_cancel_left_eq, List.cons.injEq, and_true]
    omega

theorem BestB_of_BSelBs {cap : Int} {items : List Item} {k : Nat} {c : BSel}
    (h : BSelBs cap items k c) (hr : 0 ≤ c.room) : BestB cap items c := by
  obtain ⟨bs, hlen, hv, hrm, ht⟩ := h
  exact ⟨bs, hv, by omega, ht⟩

/-! ## The Python max over children and best -/

theorem pyBetter_false {cur x : BSel} (h : pyBetter cur x = false) :
    x.value ≤ cur.value := by
  unfold pyBetter at h
  simp only [Bool.or_eq_false_iff, Bool.and_eq_false_iff, decide_eq_false_iff_not] at h
  omega

theorem pyBetter_true {cur x : BSel} (h : pyBetter cur x = true) :
    cur.value ≤ x.value := by
  unfold pyBetter at h
  simp only [Bool.or_eq_true, Bool.and_eq_true, decide_eq_true_eq] at h
  rcases h with h | ⟨h, _⟩ <;> omega

theorem pyMaxFrom_mem (cur : BSel) (l : List BSel) :
    pyMaxFrom cur l = cur ∨ pyMaxFrom cur l ∈ l := by
  induction l generalizing cur with
  | nil => left; rfl
  | cons x xs ih =>
    simp only [pyMaxFrom]
    rcases ih (if pyBetter cur x then x else cur) with h | h
    · rw [h]
      split
      · right; exact List.mem_cons_self x xs
      · left; rfl
    · right; exact List.mem_cons_of_mem x h

theorem pyMaxFrom_ge (cur : BSel) (l : List BSel) :
    cur.value ≤ (pyMaxFrom cur l).value ∧
      ∀ y ∈ l, y.value ≤ (pyMaxFrom cur l).value := by
  induction l generalizing cur with
  | nil => exact ⟨le_refl _, fun y hy => absurd hy (List.not_mem_nil y)⟩
  | cons x xs ih =>
    simp only [pyMaxFrom]
    obtain ⟨ih1, ih2⟩ := ih (if pyBetter cur x then x else cur)
    have hcur : cur.value ≤ (if pyBetter cur x then x else cur).value := by
      split
      · rename_i hb; exact pyBetter_true hb
      · exact le_refl _
    have hx : x.value ≤ (if pyBetter cur x then x else cur).value := by
      split
      · exact le_refl _
      · rename_i hb; exact pyBetter_false (Bool.not_eq_true _ ▸ eq_false_of_ne_true hb)
    refine ⟨hcur.trans ih1, ?_⟩
    intro y hy
    rcases List.mem_cons.mp hy with rfl | hm
    · exact hx.trans ih1
    · exact ih2 y hm

theorem pyMaxSel_mem (news : List BSel) (best : BSel) :
    pyMaxSel news best ∈ news ∨ pyMaxSel news best = best := by
  cases news with
  | nil => right; rfl
  | cons c cs =>
    show pyMaxFrom c (cs ++ [best]) ∈ c :: cs ∨ pyMaxFrom c (cs ++ [best]) = best
    rcases pyMaxFrom_mem c (cs ++ [best]) with h | h
    · left; rw [h]; exact List.mem_cons_self c cs
    · rcases List.mem_append.mp h with h2 | h2
      · left; exact List.mem_cons_of_mem _ h2
      · right; exact List.mem_singleton.mp h2

theorem pyMaxSel_ge (news : List BSel) (best : BSel) :
    best.value ≤ (pyMaxSel news best).value ∧
      ∀ y ∈ news, y.value ≤ (pyMaxSel news best).value := by
  cases news with
  | nil => exact ⟨le_refl _, fun y hy => absurd hy (List.not_mem_nil y)⟩
  | cons c cs =>
    obtain ⟨h1, h2⟩ := pyMaxFrom_ge c (cs ++ [best])
    refine ⟨h2 best (by simp), ?_⟩
    intro y hy
    rcases List.mem_cons.mp hy with rfl | hm
    · exact h1
    · exact h2 y (List.mem_append_left _ hm)

/-! ## Membership in the pushed frontier segment -/

theorem insSel_mem_iff {s : BSel} {l : List BSel} {x : BSel} :
    x ∈ insSel s l ↔ x = s ∨ x ∈ l := by
  induction l with
  | nil => simp [insSel]
  | cons t ts ih =>
    simp only [insSel]
    split
    · simp [or_comm, or_assoc, or_left_comm]
    · simp only [List.mem_cons, ih]
      tauto

theorem sortSel_mem_iff {l : List BSel} {x : BSel} :
    x ∈ sortSel l ↔ x ∈ l := by
  induction l with
  | nil => simp [sortSel]
  | cons t ts ih =>
    show x ∈ insSel t (sortSel ts) ↔ _
    rw [insSel_mem_iff, ih]
    simp

theorem orderedPush_mem_iff {bit : Bool} {news : List BSel} {x : BSel} :
    x ∈ orderedPush bit news ↔ x ∈ news := by
  unfold orderedPush
  rw [List.mem_reverse, sortSel_mem_iff]
  cases bit
  · simp
  · simp

/-! ## The fields of the expanded state -/

theorem expand_expanded (rand : Nat → Bool) (items : List Item) (st : BBState)
    (s : BSel) :
    (expand_and_enqueue rand items st s).expanded =
      if 0 ≤ s.sortedIndex then st.expanded ++ [(s.sortedIndex, s.value, s.room)]
      else st.expanded := rfl

theorem expand_best (rand : Nat → Bool) (items : List Item) (st : BBState)
    (s : BSel) :
    (expand_and_enqueue rand items st s).best =
      pyMaxSel (newSelections items s st.best) st.best := rfl

theorem expand_rk (rand : Nat → Bool) (items : List Item) (st : BBState)
    (s : BSel) : (expand_and_enqueue rand items st s).rk = st.rk + 1 := rfl

theorem expand_frontier_of_nil {rand : Nat → Bool} {items : List Item}
    {st : BBState} {s : BSel} (h : newSelections items s st.best = []) :
    (expand_and_enqueue rand items st s).frontier = st.frontier := by
  show (match newSelections items s st.best with
    | [] => st.frontier
    | c :: _ =>
      if c.sortedIndex + 1 < (items.length : Int) then
        orderedPush (rand st.rk) (newSelections items s st.best) ++ st.frontier
      else st.frontier) = st.frontier
  rw [h]

theorem expand_frontier_of_cons {rand : Nat → Bool} {items : List Item}
    {st : BBState} {s : BSel} {c0 : BSel} {cs : List BSel}
    (h : newSelections items s st.best = c0 :: cs) :
    (expand_and_enqueue rand items st s).frontier =
      if c0.sortedIndex + 1 < (items.length : Int) then
        orderedPush (rand st.rk) (newSelections items s st.best) ++ st.frontier
      else st.frontier := by
  show (match newSelections items s st.best with
    | [] => st.frontier
    | c :: _ =>
      if c.sortedIndex + 1 < (items.length : Int) then
        orderedPush (rand st.rk) (newSelections items s st.best) ++ st.frontier
      else st.frontier) = _
  rw [h]

theorem expand_frontier_sub {rand : Nat → Bool} {items : List Item}
    {st : BBState} {s : BSel} :
    ∀ x ∈ (expand_and_enqueue rand items st s).frontier,
      (x ∈ newSelections items s st.best ∧
        x.sortedIndex + 1 < (items.length : Int)) ∨ x ∈ st.frontier := by
  intro x hx
  rcases hnews : newSelections items s st.best with _ | ⟨c0, cs⟩
  · rw [expand_frontier_of_nil hnews] at hx
    exact Or.inr hx
  · rw [expand_frontier_of_cons hnews] at hx
    by_cases hpush : c0.sortedIndex + 1 < (items.length : Int)
    · rw [if_pos hpush] at hx
      rcases List.mem_append.mp hx with hm | hm
      · rw [orderedPush_mem_iff] at hm
        left
        have h1 := (mem_newSelections hm).2.2
        have h2 : c0.sortedIndex = s.sortedIndex + 1 :=
          (mem_newSelections (by rw [hnews]; exact List.mem_cons_self c0 cs)).2.2
        rw [hnews] at hm
        exact ⟨hm, by omega⟩
      · exact Or.inr hm
    · rw [if_neg hpush] at hx
      exact Or.inr hx

theorem expand_frontier_push {rand : Nat → Bool} {items : List Item}
    {st : BBState} {s : BSel} {c : BSel} (hc : c ∈ newSelections items s st.best)
    (hn : s.sortedIndex + 2 < (items.length : Int)) :
    c ∈ (expand_and_enqueue rand items st s).frontier := by
  rcases hnews : newSelections items s st.best with _ | ⟨c0, cs⟩
  · rw [hnews] at hc; cases hc
  · rw [expand_frontier_of_cons hnews]
    have h2 : c0.sortedIndex = s.sortedIndex + 1 :=
      (mem_newSelections (by rw [hnews]; exact List.mem_cons_self c0 cs)).2.2
    rw [if_pos (by omega)]
    apply List.mem_append_left
    rw [orderedPush_mem_iff]
    exact hc

theorem expand_frontier_keep {rand : Nat → Bool} {items : List Item}
    {st : BBState} {s : BSel} {x : BSel} (hx : x ∈ st.frontier) :
    x ∈ (expand_and_enqueue rand items st s).frontier := by
  rcases hnews : newSelections items s st.best with _ | ⟨c0, cs⟩
  · rw [expand_frontier_of_nil hnews]; exact hx
  · rw [expand_frontier_of_cons hnews]
    split
    · exact List.mem_append_right _ hx
    · exact hx


/-! ## Feasibility of the bb_solver result -/

theorem bbLoop_feas (rand : Nat → Bool) (items : List Item) (cap : Int) :
    ∀ (fuel : Nat) (st : BBState),
    (∀ s ∈ st.frontier, 0 ≤ s.sortedIndex ∧
      BSelBs cap items (s.sortedIndex.toNat + 1) s) →
    BestB cap items st.best →
    ∀ v tk, bbLoop rand items fuel st = some (v, tk) →
      takenWeight items tk ≤ cap ∧ v = takenValue items tk := by
  intro fuel
  induction fuel with
  | zero => intro st _ _ v tk h; cases h
  | succ fuel ih =>
    intro st hfr hb v tk h
    obtain ⟨frl, exp, bst, rk⟩ := st
    cases frl with
    | nil =>
      simp only [bbLoop, Option.some.injEq, Prod.mk.injEq] at h
      obtain ⟨hv2, ht2⟩ := h
      obtain ⟨bs, hv, hw, ht⟩ := hb
      have hwt := takenWeight_trueIdxsZ items bs 0
      have hvt := takenValue_trueIdxsZ items bs 0
      simp only [Nat.cast_zero, List.drop_zero] at hwt hvt
      constructor
      · rw [← ht2, takenWeight_sortedInts]
        show takenWeight items bst.takenSorted ≤ cap
        rw [ht, hwt]
        exact hw
      · rw [← ht2, takenValue_sortedInts, ← hv2]
        show bst.value = takenValue items bst.takenSorted
        rw [ht, hvt, hv]
    | cons s rest =>
      simp only [bbLoop] at h
      have hs := hfr s (List.mem_cons_self s rest)
      have hrest : ∀ x ∈ rest, 0 ≤ x.sortedIndex ∧
          BSelBs cap items (x.sortedIndex.toNat + 1) x :=
        fun x hx => hfr x (List.mem_cons_of_mem _ hx)
      have hk : ((s.sortedIndex.toNat + 1 : Nat) : Int) = s.sortedIndex + 1 := by
        have := hs.1
        omega
      split at h
      · refine ih _ ?_ ?_ v tk h
        · intro x hx
          rcases expand_frontier_sub x hx with ⟨hmem, _⟩ | hmem
          · have hidx : x.sortedIndex = s.sortedIndex + 1 :=
              (mem_newSelections hmem).2.2
            have hbs : BSelBs cap items (s.sortedIndex.toNat + 1 + 1) x := by
              rcases newSelections_cases hmem with rfl | rfl
              · exact BSelBs_decline hs.2
              · exact BSelBs_take hk hs.2
            have harr : x.sortedIndex.toNat + 1 = s.sortedIndex.toNat + 1 + 1 := by
              have := hs.1
              omega
            exact ⟨by omega, harr ▸ hbs⟩
          · exact hrest x hmem
        · rw [expand_best]
          rcases pyMaxSel_mem (newSelections items s bst) bst with hm | hm
          · have hroom := newSelections_room hm
            have hbs : BSelBs cap items (s.sortedIndex.toNat + 1 + 1)
                (pyMaxSel (newSelections items s bst) bst) := by
              rcases newSelections_cases hm with h1 | h1
              · rw [h1]; exact BSelBs_decline hs.2
              · rw [h1]; exact BSelBs_take hk hs.2
            exact BestB_of_BSelBs hbs hroom
          · rw [hm]; exact hb
      · exact ih ⟨rest, exp, bst, rk⟩ hrest hb v tk h

theorem bbRun_feas {rand : Nat → Bool} {cap : Int} {items : List Item}
    (hcap : 0 ≤ cap) {v : Int} {tk : List Int}
    (h : bbRun rand cap items = some (v, tk)) :
    takenWeight items tk ≤ cap ∧ v = takenValue items tk := by
  cases items with
  | nil => cases h
  | cons i0 rest =>
    simp only [bbRun] at h
    refine bbLoop_feas rand (i0 :: rest) cap _ _ ?_ ?_ v tk h
    · intro x hx
      rcases expand_frontier_sub x hx with ⟨hmem, _⟩ | hmem
      · have hdummy : BSelBs cap (i0 :: rest) 0
            (⟨-1, 0, cap, (cap : Rat) * i0.density, []⟩ : BSel) :=
          ⟨[], rfl, by rw [sumV_nil],
            by show cap = cap - sumW [] (i0 :: rest); rw [sumW_nil]; omega, rfl⟩
        have hidx : x.sortedIndex = 0 := (mem_newSelections hmem).2.2
        have hbs : BSelBs cap (i0 :: rest) (0 + 1) x := by
          rcases newSelections_cases hmem with rfl | rfl
          · exact BSelBs_decline hdummy
          · exact BSelBs_take rfl hdummy
        have harr : x.sortedIndex.toNat + 1 = 0 + 1 := by omega
        exact ⟨by omega, harr ▸ hbs⟩
      · cases hmem
    · rw [expand_best]
      rcases pyMaxSel_mem (newSelections (i0 :: rest)
          ⟨-1, 0, cap, (cap : Rat) * i0.density, []⟩
          ⟨-1, 0, cap, (cap : Rat) * i0.density, []⟩)
          ⟨-1, 0, cap, (cap : Rat) * i0.density, []⟩ with hm | hm
      · have hroom := newSelections_room hm
        have hdummy : BSelBs cap (i0 :: rest) 0
            (⟨-1, 0, cap, (cap : Rat) * i0.density, []⟩ : BSel) :=
          ⟨[], rfl, by rw [sumV_nil],
            by show cap = cap - sumW [] (i0 :: rest); rw [sumW_nil]; omega, rfl⟩
        have hbs : BSelBs cap (i0 :: rest) (0 + 1)
            (pyMaxSel (newSelections (i0 :: rest)
                ⟨-1, 0, cap, (cap : Rat) * i0.density, []⟩
                ⟨-1, 0, cap, (cap : Rat) * i0.density, []⟩)
              ⟨-1, 0, cap, (cap : Rat) * i0.density, []⟩) := by
          rcases newSelections_cases hm with h1 | h1
          · rw [h1]; exact BSelBs_decline hdummy
          · rw [h1]; exact BSelBs_take rfl hdummy
        exact BestB_of_BSelBs hbs hroom
      · rw [hm]
        exact ⟨[], by rw [sumV_nil], by rw [sumW_nil]; omega, rfl⟩


/-! ## Covering lemmas for the dynamic_prog sweep -/

theorem CoveredD_mono {items : List Item} {col : Nat} {q q2 : List DSel}
    {b b2 : DSel} (hq : ∀ t ∈ q, t ∈ q2) (hb : b.value ≤ b2.value) {x : Int}
    (h : CoveredD items col q b x) : CoveredD items col q2 b2 x := by
  rcases h with h | ⟨t, ht, hx⟩
  · exact Or.inl (h.trans hb)
  · exact Or.inr ⟨t, hq t ht, hx⟩

theorem CoveredD_le {items : List Item} {col : Nat} {q : List DSel} {b : DSel}
    {x y : Int} (hxy : x ≤ y) (h : CoveredD items col q b y) :
    CoveredD items col q b x := by
  rcases h with h | ⟨t, ht, hx⟩
  · exact Or.inl (hxy.trans h)
  · exact Or.inr ⟨t, ht, hxy.trans hx⟩

theorem covD_mono {items : List Item} {col : Nat} {s t : DSel}
    (hv : s.value ≤ t.value) (hr : s.room ≤ t.room) :
    covD items col s ≤ covD items col t := by
  unfold covD
  have := bestFuture_mono (items.drop col) hr
  omega

theorem covD_le_maxValue {items : List Item} {col : Nat} {s : DSel}
    (hwf : ItemsWF items) (hb : DSelBound items col s) (hr : 0 ≤ s.room) :
    ((covD items col s : Int) : Rat) ≤ s.maxValue := by
  rw [hb]
  unfold covD
  push_cast
  have h1 := bestFuture_le_headDensity (hwf.drop col) hr
  have h2 : headDensity (items.drop col) * (s.room : Rat) =
      (s.room : Rat) * headDensity (items.drop col) := mul_comm _ _
  linarith

theorem DSelBound_dpDecline {items : List Item} {col : Nat} {rest : List Item}
    (hdrop : items.drop (col + 1) = rest) (s : DSel) :
    DSelBound items (col + 1) (dpDecline s (headDensity rest)) := by
  unfold DSelBound dpDecline
  rw [hdrop]

theorem DSelBound_dpTake {items : List Item} {col : Nat} {rest : List Item}
    (hdrop : items.drop (col + 1) = rest) (s : DSel) (item : Item) (idx : Int) :
    DSelBound items (col + 1) (dpTake s item (headDensity rest) idx) := by
  unfold DSelBound dpTake
  rw [hdrop]

theorem DSelInv_value_nonneg {cap : Int} {items : List Item} {col : Nat}
    {s : DSel} (hv : ∀ it ∈ items, 0 ≤ it.value) (h : DSelInv cap items col s) :
    0 ≤ s.value := by
  obtain ⟨_, bs, _, hval, _, _⟩ := h
  rw [hval]
  exact sumV_nonneg hv bs

theorem DSelInv_room_le_cap {cap : Int} {items : List Item} {col : Nat}
    {s : DSel} (hw : ∀ it ∈ items, 0 ≤ it.weight) (h : DSelInv cap items col s) :
    s.room ≤ cap := by
  obtain ⟨_, bs, _, _, hroom, _⟩ := h
  have := sumW_nonneg hw bs
  omega

theorem dpKeep_covers {items : List Item} {col : Nat} {item : Item}
    {rest : List Item} (hwf : ItemsWF items)
    (hcol : items.drop col = item :: rest) {s : DSel} (hroom : 0 ≤ s.room)
    {b : DSel} {qout : List DSel} {bout : DSel}
    (hq1 : (b.value : Rat) < (dpDecline s (headDensity rest)).maxValue →
      dpDecline s (headDensity rest) ∈ qout)
    (hq2 : (b.value : Rat) < (dpTake s item (headDensity rest) (col : Int)).maxValue →
      0 ≤ (dpTake s item (headDensity rest) (col : Int)).room →
      dpTake s item (headDensity rest) (col : Int) ∈ qout)
    (hbb : b.value ≤ bout.value) :
    CoveredD items (col + 1) qout bout (covD items col s) := by
  have hdrop1 : items.drop (col + 1) = rest := (getD_of_drop_cons hcol).2
  have hcovdec : covD items (col + 1) (dpDecline s (headDensity rest)) =
      s.value + bestFuture s.room rest := by
    unfold covD dpDecline
    rw [hdrop1]
  have hdeccover : CoveredD items (col + 1) qout bout
      (s.value + bestFuture s.room rest) := by
    by_cases hd : (b.value : Rat) < (dpDecline s (headDensity rest)).maxValue
    · exact Or.inr ⟨_, hq1 hd, le_of_eq hcovdec.symm⟩
    · push_neg at hd
      have hb1 := @covD_le_maxValue items (col + 1)
        (dpDecline s (headDensity rest)) hwf
        (DSelBound_dpDecline hdrop1 s) hroom
      have : ((covD items (col + 1) (dpDecline s (headDensity rest)) : Int) : Rat) ≤
          (b.value : Rat) := hb1.trans hd
      have h2 : covD items (col + 1) (dpDecline s (headDensity rest)) ≤ b.value := by
        exact_mod_cast this
      rw [hcovdec] at h2
      exact Or.inl (by omega)
  have hcov : covD items col s = s.value + bestFuture s.room (item :: rest) := by
    unfold covD
    rw [hcol]
  rw [hcov]
  by_cases hw : item.weight ≤ s.room
  · have hbf : bestFuture s.room (item :: rest) =
        max (bestFuture s.room rest)
          (item.value + bestFuture (s.room - item.weight) rest) := by
      simp only [bestFuture, if_pos hw]
    rw [hbf]
    rcases max_cases (bestFuture s.room rest)
        (item.value + bestFuture (s.room - item.weight) rest) with ⟨hm, _⟩ | ⟨hm, _⟩
    · rw [hm]
      exact hdeccover
    · rw [hm]
      have hcovtake : covD items (col + 1) (dpTake s item (headDensity rest) (col : Int)) =
          s.value + (item.value + bestFuture (s.room - item.weight) rest) := by
        show s.value + item.value +
            bestFuture (s.room - item.weight) (items.drop (col + 1)) = _
        rw [hdrop1]
        omega
      have hroomt : 0 ≤ (dpTake s item (headDensity rest) (col : Int)).room := by
        show 0 ≤ s.room - item.weight
        omega
      by_cases ht : (b.value : Rat) <
          (dpTake s item (headDensity rest) (col : Int)).maxValue
      · exact Or.inr ⟨_, hq2 ht hroomt, le_of_eq hcovtake.symm⟩
      · push_neg at ht
        have hb1 := @covD_le_maxValue items (col + 1)
          (dpTake s item (headDensity rest) (col : Int))
          hwf (DSelBound_dpTake hdrop1 s item (col : Int)) hroomt
        have h2 : covD items (col + 1) (dpTake s item (headDensity rest) (col : Int)) ≤
            b.value := by
          exact_mod_cast hb1.trans ht
        rw [hcovtake] at h2
        exact Or.inl (by omega)
  · have hbf : bestFuture s.room (item :: rest) = bestFuture s.room rest := by
      simp only [bestFuture, if_neg hw]
    rw [hbf]
    exact hdeccover

theorem ColSound_init {items : List Item} {col : Nat} {item : Item}
    {rest : List Item} (hwf : ItemsWF items)
    (hcol : items.drop col = item :: rest) (rbound : Int) (q : List DSel)
    {b : DSel} (hb0 : 0 ≤ b.value) :
    ColSound items col item 0 0 rbound q b := by
  intro v r hv hr _ hskip
  rcases hskip with h | ⟨hv0, hmv⟩
  · omega
  · subst hv0
    have hbf := bestFuture_le_headDensity (hwf.drop col) hr
    rw [hcol] at hbf
    have hd : headDensity (item :: rest) = item.density := rfl
    rw [hd] at hbf
    have hx : ((bestFuture r (items.drop col) : Int) : Rat) ≤ 0 := by
      have h2 : item.density * (r : Rat) = (r : Rat) * item.density := mul_comm _ _
      rw [hcol]
      push_cast at hmv ⊢
      linarith
    have hx2 : bestFuture r (items.drop col) ≤ 0 := by exact_mod_cast hx
    exact Or.inl (by omega)

theorem ColSound_mono {items : List Item} {col : Nat} {item : Item}
    {cbv : Int} {cbm : Rat} {rbound rbound2 : Int} {q q2 : List DSel}
    {b b2 : DSel} (hq : ∀ t ∈ q, t ∈ q2) (hb : b.value ≤ b2.value)
    (hrb : rbound2 ≤ rbound) (h : ColSound items col item cbv cbm rbound q b) :
    ColSound items col item cbv cbm rbound2 q2 b2 := by
  intro v r hv hr hrb2 hskip
  exact CoveredD_mono hq hb (h v r hv hr (by omega) hskip)

theorem ColSound_keep {items : List Item} {col : Nat} {item : Item}
    {rest : List Item} (hwf : ItemsWF items)
    (hcol : items.drop col = item :: rest) {s : DSel} (hroom : 0 ≤ s.room)
    {b : DSel} {qout : List DSel} {bout : DSel}
    (hq1 : (b.value : Rat) < (dpDecline s (headDensity rest)).maxValue →
      dpDecline s (headDensity rest) ∈ qout)
    (hq2 : (b.value : Rat) < (dpTake s item (headDensity rest) (col : Int)).maxValue →
      0 ≤ (dpTake s item (headDensity rest) (col : Int)).room →
      dpTake s item (headDensity rest) (col : Int) ∈ qout)
    (hbb : b.value ≤ bout.value) :
    ColSound items col item s.value s.maxValue s.room qout bout := by
  intro v r hv hr hrb hskip
  have hcover := dpKeep_covers hwf hcol hroom hq1 hq2 hbb
  have hle : v + bestFuture r (items.drop col) ≤ covD items col s := by
    have hvle : v ≤ s.value := by
      rcases hskip with h | ⟨h, _⟩ <;> omega
    have := bestFuture_mono (items.drop col) hrb
    unfold covD
    omega
  exact CoveredD_le hle hcover

theorem dpInner_cover (cap : Int) (items : List Item) (hwf : ItemsWF items)
    (col : Nat) (item : Item) (rest : List Item)
    (hcol : items.drop col = item :: rest) :
    ∀ (prev : List DSel) (cbv : Int) (cbm : Rat) (rbound : Int)
      (q : List DSel) (b : DSel),
    (∀ s ∈ prev, DSelInv cap items col s) →
    (∀ s ∈ prev, DSelBound items col s) →
    RoomSorted prev →
    (∀ s ∈ prev, s.room ≤ rbound) →
    (∀ s ∈ prev, s.value ≤ b.value) →
    (∀ s ∈ q, DSelInv cap items (col + 1) s) →
    (∀ s ∈ q, DSelBound items (col + 1) s) →
    RoomSorted q →
    (∀ s ∈ q, s.value ≤ b.value) →
    0 ≤ b.value →
    ColSound items col item cbv cbm rbound q b →
    (∀ s ∈ (dpInner item (headDensity rest) (col : Int) prev cbv cbm q b).1,
        DSelInv cap items (col + 1) s) ∧
    (∀ s ∈ (dpInner item (headDensity rest) (col : Int) prev cbv cbm q b).1,
        DSelBound items (col + 1) s) ∧
    RoomSorted (dpInner item (headDensity rest) (col : Int) prev cbv cbm q b).1 ∧
    (∀ s ∈ (dpInner item (headDensity rest) (col : Int) prev cbv cbm q b).1,
        s.value ≤ (dpInner item (headDensity rest) (col : Int) prev cbv cbm q b).2.value) ∧
    b.value ≤ (dpInner item (headDensity rest) (col : Int) prev cbv cbm q b).2.value ∧
    (∀ x : Int,
      (x ≤ b.value ∨ (∃ s ∈ prev, x ≤ covD items col s) ∨
        (∃ t ∈ q, x ≤ covD items (col + 1) t)) →
      CoveredD items (col + 1)
        (dpInner item (headDensity rest) (col : Int) prev cbv cbm q b).1
        (dpInner item (headDensity rest) (col : Int) prev cbv cbm q b).2 x) := by
  have hvals : ∀ it ∈ items, 0 ≤ it.value := fun it hit => (hwf.1 it hit).1
  have hdrop1 : items.drop (col + 1) = rest := (getD_of_drop_cons hcol).2
  have hdmatch : headDensity (items.drop col) = item.density := by rw [hcol]; rfl
  intro prev
  induction prev with
  | nil =>
    intro cbv cbm rbound q b _ _ _ _ _ hqI hqB hqS hqV hb0 _
    refine ⟨hqI, hqB, hqS, hqV, le_refl _, ?_⟩
    intro x hx
    rcases hx with h | ⟨s, hs, _⟩ | ⟨t, ht, hx⟩
    · exact Or.inl h
    · cases hs
    · exact Or.inr ⟨t, ht, hx⟩
  | cons s rest2 ih =>
    intro cbv cbm rbound q b hpI hpB hpS hpR hpV hqI hqB hqS hqV hb0 hcs
    have hsI := hpI s (List.mem_cons_self s rest2)
    have hsB := hpB s (List.mem_cons_self s rest2)
    have hsroom : 0 ≤ s.room := hsI.1
    have hsval : 0 ≤ s.value := DSelInv_value_nonneg hvals hsI
    have hpI2 : ∀ x ∈ rest2, DSelInv cap items col x :=
      fun x hx => hpI x (List.mem_cons_of_mem _ hx)
    have hpB2 : ∀ x ∈ rest2, DSelBound items col x :=
      fun x hx => hpB x (List.mem_cons_of_mem _ hx)
    have hpS2 : RoomSorted rest2 := (List.pairwise_cons.mp hpS).2
    have hpRs : ∀ x ∈ rest2, x.room ≤ s.room := (List.pairwise_cons.mp hpS).1
    have hpV2 : ∀ x ∈ rest2, x.value ≤ b.value :=
      fun x hx => hpV x (List.mem_cons_of_mem _ hx)
    by_cases hskip : s.value < cbv ∨ (s.value = cbv ∧ s.maxValue ≤ cbm)
    · simp only [dpInner, if_pos hskip]
      have hcovs : CoveredD items (col + 1) q b (covD items col s) := by
        have := hcs s.value s.room hsval hsroom (hpR s (List.mem_cons_self s rest2)) ?_
        · exact this
        · rcases hskip with h | ⟨h, hm⟩
          · exact Or.inl h
          · refine Or.inr ⟨h, ?_⟩
            rw [hsB, hdmatch] at hm
            exact hm
      have H := ih cbv cbm rbound q b hpI2 hpB2 hpS2
        (fun x hx => (hpRs x hx).trans (hpR s (List.mem_cons_self s rest2)))
        hpV2 hqI hqB hqS hqV hb0 hcs
      obtain ⟨H1, H2, H3, H4, H5, H6⟩ := H
      refine ⟨H1, H2, H3, H4, H5, ?_⟩
      intro x hx
      rcases hx with h | ⟨t, ht, hxc⟩ | ⟨t, ht, hxc⟩
      · exact H6 x (Or.inl h)
      · rcases List.mem_cons.mp ht with rfl | hm
        · rcases CoveredD_le hxc hcovs with h2 | ⟨u, hu, hxu⟩
          · exact H6 x (Or.inl h2)
          · exact H6 x (Or.inr (Or.inr ⟨u, hu, hxu⟩))
        · exact H6 x (Or.inr (Or.inl ⟨t, hm, hxc⟩))
      · exact H6 x (Or.inr (Or.inr ⟨t, ht, hxc⟩))
    · simp only [dpInner, if_neg hskip]
      have hq1I : ∀ x ∈ (if (b.value : Rat) < (dpDecline s (headDensity rest)).maxValue
          then qinsert (dpDecline s (headDensity rest)) q else q),
          DSelInv cap items (col + 1) x := by
        split
        · intro x hx
          rcases qinsert_mem_iff.mp hx with rfl | hm
          · exact DSelInv_decline _ hsI
          · exact hqI x hm
        · exact hqI
      have hq1B : ∀ x ∈ (if (b.value : Rat) < (dpDecline s (headDensity rest)).maxValue
          then qinsert (dpDecline s (headDensity rest)) q else q),
          DSelBound items (col + 1) x := by
        split
        · intro x hx
          rcases qinsert_mem_iff.mp hx with rfl | hm
          · exact DSelBound_dpDecline hdrop1 s
          · exact hqB x hm
        · exact hqB
      have hq1S : RoomSorted (if (b.value : Rat) <
          (dpDecline s (headDensity rest)).maxValue
          then qinsert (dpDecline s (headDensity rest)) q else q) := by
        split
        · exact qinsert_roomSorted hqS
        · exact hqS
      have hq1mem : ∀ x ∈ q, x ∈ (if (b.value : Rat) <
          (dpDecline s (headDensity rest)).maxValue
          then qinsert (dpDecline s (headDensity rest)) q else q) := by
        intro x hx
        split
        · exact qinsert_mem_iff.mpr (Or.inr hx)
        · exact hx
      have hq1dec : (b.value : Rat) < (dpDecline s (headDensity rest)).maxValue →
          dpDecline s (headDensity rest) ∈ (if (b.value : Rat) <
            (dpDecline s (headDensity rest)).maxValue
            then qinsert (dpDecline s (headDensity rest)) q else q) := by
        intro hd
        rw [if_pos hd]
        exact qinsert_mem_iff.mpr (Or.inl rfl)
      have hq1V : ∀ x ∈ (if (b.value : Rat) <
          (dpDecline s (headDensity rest)).maxValue
          then qinsert (dpDecline s (headDensity rest)) q else q),
          x.value ≤ b.value := by
        split
        · intro x hx
          rcases qinsert_mem_iff.mp hx with rfl | hm
          · exact hpV s (List.mem_cons_self s rest2)
          · exact hqV x hm
        · exact hqV
      by_cases htake : (b.value : Rat) <
          (dpTake s item (headDensity rest) (col : Int)).maxValue ∧
          0 ≤ (dpTake s item (headDensity rest) (col : Int)).room
      · rw [if_pos htake]
        have hbn : b.value ≤ (if b.value < (dpTake s item (headDensity rest)
            (col : Int)).value then dpTake s item (headDensity rest) (col : Int)
            else b).value := by
          split
          · rename_i hlt; exact le_of_lt hlt
          · exact le_refl _
        have hkeep := @dpKeep_covers items col item rest hwf hcol s hsroom b
          (qinsert (dpTake s item (headDensity rest) (col : Int))
            (if (b.value : Rat) < (dpDecline s (headDensity rest)).maxValue
              then qinsert (dpDecline s (headDensity rest)) q else q))
          (if b.value < (dpTake s item (headDensity rest) (col : Int)).value
            then dpTake s item (headDensity rest) (col : Int) else b)
          (fun hd => qinsert_mem_iff.mpr (Or.inr (hq1dec hd)))
          (fun ht hr => qinsert_mem_iff.mpr (Or.inl rfl)) hbn
        have H := ih s.value s.maxValue s.room
          (qinsert (dpTake s item (headDensity rest) (col : Int))
            (if (b.value : Rat) < (dpDecline s (headDensity rest)).maxValue
              then qinsert (dpDecline s (headDensity rest)) q else q))
          (if b.value < (dpTake s item (headDensity rest) (col : Int)).value
            then dpTake s item (headDensity rest) (col : Int) else b)
          hpI2 hpB2 hpS2 hpRs (fun x hx => (hpV2 x hx).trans hbn)
          ?_ ?_ ?_ ?_ (hb0.trans hbn) ?_
        · obtain ⟨H1, H2, H3, H4, H5, H6⟩ := H
          refine ⟨H1, H2, H3, H4, hbn.trans H5, ?_⟩
          intro x hx
          rcases hx with h | ⟨t, ht, hxc⟩ | ⟨t, ht, hxc⟩
          · exact H6 x (Or.inl (h.trans hbn))
          · rcases List.mem_cons.mp ht with rfl | hm
            · rcases CoveredD_le hxc hkeep with h2 | ⟨u, hu, hxu⟩
              · exact H6 x (Or.inl h2)
              · exact H6 x (Or.inr (Or.inr ⟨u, hu, hxu⟩))
            · exact H6 x (Or.inr (Or.inl ⟨t, hm, hxc⟩))
          · exact H6 x (Or.inr (Or.inr ⟨t,
              qinsert_mem_iff.mpr (Or.inr (hq1mem t ht)), hxc⟩))
        · intro x hx
          rcases qinsert_mem_iff.mp hx with rfl | hm
          · exact DSelInv_take _ hcol hsI htake.2
          · exact hq1I x hm
        · intro x hx
          rcases qinsert_mem_iff.mp hx with rfl | hm
          · exact DSelBound_dpTake hdrop1 s item (col : Int)
          · exact hq1B x hm
        · exact qinsert_roomSorted hq1S
        · intro x hx
          rcases qinsert_mem_iff.mp hx with rfl | hm
          · show (dpTake s item (headDensity rest) (col : Int)).value ≤ _
            split
            · exact le_refl _
            · rename_i hnlt; omega
          · exact (hq1V x hm).trans hbn
        · exact ColSound_keep hwf hcol hsroom
            (fun hd => qinsert_mem_iff.mpr (Or.inr (hq1dec hd)))
            (fun ht hr => qinsert_mem_iff.mpr (Or.inl rfl)) hbn
      · rw [if_neg htake]
        have H := ih s.value s.maxValue s.room
          (if (b.value : Rat) < (dpDecline s (headDensity rest)).maxValue
            then qinsert (dpDecline s (headDensity rest)) q else q) b
          hpI2 hpB2 hpS2 hpRs hpV2 hq1I hq1B hq1S ?_ hb0 ?_
        · obtain ⟨H1, H2, H3, H4, H5, H6⟩ := H
          have hkeep := @dpKeep_covers items col item rest hwf hcol s hsroom b
            (if (b.value : Rat) < (dpDecline s (headDensity rest)).maxValue
              then qinsert (dpDecline s (headDensity rest)) q else q) b hq1dec
            (fun ht hr => absurd ⟨ht, hr⟩ htake) (le_refl b.value)
          refine ⟨H1, H2, H3, H4, H5, ?_⟩
          intro x hx
          rcases hx with h | ⟨t, ht, hxc⟩ | ⟨t, ht, hxc⟩
          · exact H6 x (Or.inl h)
          · rcases List.mem_cons.mp ht with rfl | hm
            · rcases CoveredD_le hxc hkeep with h2 | ⟨u, hu, hxu⟩
              · exact H6 x (Or.inl h2)
              · exact H6 x (Or.inr (Or.inr ⟨u, hu, hxu⟩))
            · exact H6 x (Or.inr (Or.inl ⟨t, hm, hxc⟩))
          · exact H6 x (Or.inr (Or.inr ⟨t, hq1mem t ht, hxc⟩))
        · exact hq1V
        · exact ColSound_keep hwf hcol hsroom hq1dec
            (fun ht hr => absurd ⟨ht, hr⟩ htake) (le_refl _)

theorem dpOuter_cover (cap : Int) (items : List Item) (hwf : ItemsWF items) :
    ∀ (suffix : List Item) (col : Nat) (queue : List DSel) (best : DSel),
    items.drop col = suffix →
    (∀ s ∈ queue, DSelInv cap items col s) →
    (∀ s ∈ queue, DSelBound items col s) →
    RoomSorted queue →
    (∀ s ∈ queue, s.value ≤ best.value) →
    0 ≤ best.value →
    ∀ x : Int, CoveredD items col queue best x →
    x ≤ (dpOuter suffix (col : Int) queue best).value := by
  have hweights : ∀ it ∈ items, 0 ≤ it.weight :=
    fun it hit => (hwf.1 it hit).2.1.le
  intro suffix
  induction suffix with
  | nil =>
    intro col queue best hcol _ _ _ hqV _ x hx
    rcases hx with h | ⟨t, ht, hxc⟩
    · exact h
    · have hcv : covD items col t = t.value := by
        unfold covD
        rw [hcol]
        simp [bestFuture]
      rw [hcv] at hxc
      exact hxc.trans (hqV t ht)
  | cons it rest ihs =>
    intro col queue best hcol hqI hqB hqS hqV hb0 x hx
    simp only [dpOuter]
    have hrb : ∀ s ∈ queue, s.room ≤ cap :=
      fun s hs => DSelInv_room_le_cap hweights (hqI s hs)
    have H := dpInner_cover cap items hwf col it rest hcol queue 0 0 cap [] best
      hqI hqB hqS hrb hqV (fun y hy => absurd hy (List.not_mem_nil y))
      (fun y hy => absurd hy (List.not_mem_nil y)) List.Pairwise.nil
      (fun y hy => absurd hy (List.not_mem_nil y)) hb0
      (ColSound_init hwf hcol cap [] hb0)
    obtain ⟨H1, H2, H3, H4, H5, H6⟩ := H
    have hcol1 : items.drop (col + 1) = rest := (getD_of_drop_cons hcol).2
    have hcast : (col : Int) + 1 = ((col + 1 : Nat) : Int) := by push_cast; ring
    rw [hcast]
    refine ihs (col + 1) _ _ hcol1 H1 H2 H3 H4 (hb0.trans H5) x ?_
    apply H6
    rcases hx with h | ⟨t, ht, hxc⟩
    · exact Or.inl h
    · exact Or.inr (Or.inl ⟨t, ht, hxc⟩)

theorem dynamic_prog_opt {greedy cap : Int} {items : List Item}
    (hwf : ItemsWF items) (hcap : 0 ≤ cap) (hne : items ≠ [])
    (hg0 : 0 ≤ greedy) (hgle : greedy ≤ bestFuture cap items) :
    (dynamic_prog greedy cap items).map Prod.fst =
      some (bestFuture cap items) := by
  cases items with
  | nil => exact absurd rfl hne
  | cons i0 rest =>
    have hvals : ∀ it ∈ (i0 :: rest), 0 ≤ it.value :=
      fun it hit => (hwf.1 it hit).1
    have hweights : ∀ it ∈ (i0 :: rest), 0 ≤ it.weight :=
      fun it hit => (hwf.1 it hit).2.1.le
    have hbaseI : ∀ s ∈ qinsert (⟨0, cap, (cap : Rat) * i0.density, []⟩ : DSel) [],
        DSelInv cap (i0 :: rest) 0 s := by
      intro s hsx
      rcases qinsert_mem_iff.mp hsx with rfl | hm
      · exact ⟨hcap, [], rfl, rfl, by rw [sumW_nil]; show cap = cap - 0; omega, rfl⟩
      · cases hm
    have hbaseB : ∀ s ∈ qinsert (⟨0, cap, (cap : Rat) * i0.density, []⟩ : DSel) [],
        DSelBound (i0 :: rest) 0 s := by
      intro s hsx
      rcases qinsert_mem_iff.mp hsx with rfl | hm
      · show (cap : Rat) * i0.density =
          ((0 : Int) : Rat) + (cap : Rat) * headDensity ((i0 :: rest).drop 0)
        push_cast
        show (cap : Rat) * i0.density = 0 + (cap : Rat) * i0.density
        ring
      · cases hm
    have hbaseS : RoomSorted (qinsert (⟨0, cap, (cap : Rat) * i0.density, []⟩ : DSel) []) := by
      show RoomSorted [⟨0, cap, (cap : Rat) * i0.density, []⟩]
      exact List.pairwise_singleton _ _
    have hbaseV : ∀ s ∈ qinsert (⟨0, cap, (cap : Rat) * i0.density, []⟩ : DSel) [],
        s.value ≤ (⟨greedy, 0, (cap : Rat) * i0.density, []⟩ : DSel).value := by
      intro s hsx
      rcases qinsert_mem_iff.mp hsx with rfl | hm
      · exact hg0
      · cases hm
    have hcover := dpOuter_cover cap (i0 :: rest) hwf (i0 :: rest) 0
      (qinsert (⟨0, cap, (cap : Rat) * i0.density, []⟩ : DSel) [])
      (⟨greedy, 0, (cap : Rat) * i0.density, []⟩ : DSel) rfl
      hbaseI hbaseB hbaseS hbaseV hg0 (bestFuture cap (i0 :: rest))
      (Or.inr ⟨⟨0, cap, (cap : Rat) * i0.density, []⟩,
        qinsert_mem_iff.mpr (Or.inl rfl), by
          show bestFuture cap (i0 :: rest) ≤
            0 + bestFuture cap ((i0 :: rest).drop 0)
          rw [List.drop_zero]
          omega⟩)
    simp only [Nat.cast_zero] at hcover
    have hfeas := dpOuter_feas cap greedy (i0 :: rest) (i0 :: rest) 0
      (qinsert (⟨0, cap, (cap : Rat) * i0.density, []⟩ : DSel) [])
      (⟨greedy, 0, (cap : Rat) * i0.density, []⟩ : DSel) rfl hbaseI
      (Or.inl ⟨rfl, rfl⟩)
    simp only [Nat.cast_zero] at hfeas
    have hub : (dpOuter (i0 :: rest) 0
        (qinsert (⟨0, cap, (cap : Rat) * i0.density, []⟩ : DSel) [])
        (⟨greedy, 0, (cap : Rat) * i0.density, []⟩ : DSel)).value ≤
        bestFuture cap (i0 :: rest) := by
      rcases hfeas with ⟨hval, _⟩ | ⟨bs, hval, hwle, _⟩
      · rw [hval]; exact hgle
      · rw [hval]
        exact sumV_le_bestFuture (i0 :: rest) bs cap hvals hweights hwle
    show some (dpOuter (i0 :: rest) 0
        (qinsert (⟨0, cap, (cap : Rat) * i0.density, []⟩ : DSel) [])
        (⟨greedy, 0, (cap : Rat) * i0.density, []⟩ : DSel)).value =
      some (bestFuture cap (i0 :: rest))
    have : (dpOuter (i0 :: rest) 0
        (qinsert (⟨0, cap, (cap : Rat) * i0.density, []⟩ : DSel) [])
        (⟨greedy, 0, (cap : Rat) * i0.density, []⟩ : DSel)).value =
        bestFuture cap (i0 :: rest) := le_antisymm hub hcover
    rw [this]

/-! ## Covering lemmas for the bb_solver frontier -/

theorem CoveredB_le {items : List Item} {fr : List BSel} {b : BSel} {J x y : Int}
    (hxy : x ≤ y) (h : CoveredB items fr b J y) : CoveredB items fr b J x := by
  rcases h with h | ⟨t, ht, hJ, hx⟩
  · exact Or.inl (hxy.trans h)
  · exact Or.inr ⟨t, ht, hJ, hxy.trans hx⟩

theorem CoveredB_weaken {items : List Item} {fr : List BSel} {b : BSel}
    {J J2 x : Int} (hJ : J2 ≤ J) (h : CoveredB items fr b J x) :
    CoveredB items fr b J2 x := by
  rcases h with h | ⟨t, ht, hJt, hx⟩
  · exact Or.inl h
  · exact Or.inr ⟨t, ht, by omega, hx⟩

theorem CoveredB_step {items : List Item} {s : BSel} {rest fr2 : List BSel}
    {b b2 : BSel} {J x : Int}
    (hcov : CoveredB items (s :: rest) b J x)
    (hb : b.value ≤ b2.value)
    (hrest : ∀ t ∈ rest, t ∈ fr2)
    (hs : CoveredB items fr2 b2 s.sortedIndex (covB items s)) :
    CoveredB items fr2 b2 J x := by
  rcases hcov with h | ⟨t, ht, hJt, hxt⟩
  · exact Or.inl (h.trans hb)
  · rcases List.mem_cons.mp ht with rfl | hm
    · rcases hs with h2 | ⟨u, hu, hJu, hxu⟩
      · exact Or.inl (hxt.trans h2)
      · exact Or.inr ⟨u, hu, by omega, hxt.trans hxu⟩
    · exact Or.inr ⟨t, hrest t hm, hJt, hxt⟩

theorem CoveredB_of_cons_gt {items : List Item} {s : BSel} {rest : List BSel}
    {b : BSel} {x : Int} (h : CoveredB items (s :: rest) b s.sortedIndex x) :
    CoveredB items rest b s.sortedIndex x := by
  rcases h with h | ⟨t, ht, hJ, hx⟩
  · exact Or.inl h
  · rcases List.mem_cons.mp ht with rfl | hm
    · omega
    · exact Or.inr ⟨t, hm, hJ, hx⟩

theorem cov_formula_bound {items : List Item} {k : Nat} (hwf : ItemsWF items)
    {v r : Int} (hr : 0 ≤ r) {mv : Rat}
    (hmv : mv = (v : Rat) + (r : Rat) * headDensity (items.drop k)) :
    ((v + bestFuture r (items.drop k) : Int) : Rat) ≤ mv := by
  rw [hmv]
  push_cast
  have h1 := bestFuture_le_headDensity (hwf.drop k) hr
  have h2 : headDensity (items.drop k) * (r : Rat) =
      (r : Rat) * headDensity (items.drop k) := mul_comm _ _
  linarith

theorem covB_mono {items : List Item} {s : BSel} {v r : Int}
    (hv : s.value ≤ v) (hr : s.room ≤ r) :
    covB items s ≤ v + bestFuture r (items.drop (s.sortedIndex.toNat + 1)) := by
  unfold covB
  have := bestFuture_mono (items.drop (s.sortedIndex.toNat + 1)) hr
  omega

/-! ## The expanded table stays inside the reachable triples -/

theorem boolLists_mem {m : Nat} {bs : List Bool} (h : bs.length = m) :
    bs ∈ boolLists m := by
  induction bs generalizing m with
  | nil =>
    cases m with
    | zero => exact List.mem_singleton.mpr rfl
    | succ m => cases h
  | cons b bs2 ih =>
    cases m with
    | zero => cases h
    | succ m =>
      simp only [List.length_cons, Nat.succ.injEq] at h
      simp only [boolLists, List.mem_flatMap]
      refine ⟨bs2, ih h, ?_⟩
      cases b <;> simp

theorem expEntry_mem_allTriples {cap : Int} {items : List Item}
    {e : Int × Int × Int} (he : ExpEntry cap items e) :
    e ∈ allTriples cap items := by
  obtain ⟨h0, hlt, _, bs, hlen, hv, hr⟩ := he
  unfold allTriples
  rw [List.mem_flatMap]
  refine ⟨e.1.toNat, List.mem_range.mpr (by omega), ?_⟩
  rw [List.mem_map]
  refine ⟨bs, boolLists_mem (by omega), ?_⟩
  have h1 : ((e.1.toNat : Nat) : Int) = e.1 := Int.toNat_of_nonneg h0
  obtain ⟨e1, e2, e3⟩ := e
  simp only at h1 hv hr ⊢
  exact Prod.ext h1 (Prod.ext hv.symm hr.symm)

theorem nodup_length_le {α : Type} [DecidableEq α] {l L : List α}
    (hnd : l.Nodup) (hsub : ∀ x ∈ l, x ∈ L) : l.length ≤ L.length := by
  calc l.length = l.toFinset.card := (List.toFinset_card_of_nodup hnd).symm
    _ ≤ L.toFinset.card := Finset.card_le_card (fun x hx => by
        rw [List.mem_toFinset] at hx ⊢
        exact hsub x hx)
    _ ≤ L.length := List.toFinset_card_le L

/-! ## The already_expanded predicate -/

theorem already_false_not_mem {exp : List (Int × Int × Int)} {s : BSel}
    (h : already_expanded exp s = false) :
    (s.sortedIndex, s.value, s.room) ∉ exp := by
  intro hmem
  unfold already_expanded at h
  rw [List.any_eq_false] at h
  have := h _ hmem
  simp at this

theorem already_true_elim {exp : List (Int × Int × Int)} {s : BSel}
    (h : already_expanded exp s = true) :
    ∃ e ∈ exp, e.1 = s.sortedIndex ∧ s.value ≤ e.2.1 ∧ s.room ≤ e.2.2 := by
  unfold already_expanded at h
  rw [List.any_eq_true] at h
  obtain ⟨e, he, hp⟩ := h
  refine ⟨e, he, ?_⟩
  simp at hp
  exact ⟨hp.1.1, hp.1.2, hp.2⟩

/-! ## Lengths of the pushed segment -/

theorem insSel_length (s : BSel) (l : List BSel) :
    (insSel s l).length = l.length + 1 := by
  induction l with
  | nil => rfl
  | cons t ts ih =>
    simp only [insSel]
    split
    · simp
    · simp [ih]

theorem sortSel_length (l : List BSel) : (sortSel l).length = l.length := by
  induction l with
  | nil => rfl
  | cons t ts ih =>
    show (insSel t (sortSel ts)).length = ts.length + 1
    rw [insSel_length, ih]

theorem orderedPush_length (bit : Bool) (news : List BSel) :
    (orderedPush bit news).length = news.length := by
  unfold orderedPush
  rw [List.length_reverse, sortSel_length]
  cases bit
  · simp
  · simp

/-! ## Every expansion covers what the expanded selection could reach -/

theorem expand_covers {items : List Item} (hwf : ItemsWF items)
    {rand : Nat → Bool} {st : BBState} {s : BSel} {k : Nat}
    (hk : (k : Int) = s.sortedIndex + 1) (hkn : k < items.length)
    (hroom : 0 ≤ s.room) :
    CoveredB items (expand_and_enqueue rand items st s).frontier
      (expand_and_enqueue rand items st s).best s.sortedIndex
      (s.value + bestFuture s.room (items.drop k)) := by
  have htn : (s.sortedIndex + 1).toNat = k := by omega
  have hfd : futDensity items s = headDensity (items.drop (k + 1)) :=
    futDensity_eq hk
  have hcdm : (bbDecline items s).maxValue =
      (s.value : Rat) + (s.room : Rat) * headDensity (items.drop (k + 1)) := by
    show (s.value : Rat) + (s.room : Rat) * futDensity items s = _
    rw [hfd]
  have hcovd : covB items (bbDecline items s) =
      s.value + bestFuture s.room (items.drop (k + 1)) := by
    unfold covB
    have h1 : (bbDecline items s).sortedIndex.toNat = k := by
      rw [bbDecline_sortedIndex]
      exact htn
    rw [h1]
    rfl
  have hA : CoveredB items (expand_and_enqueue rand items st s).frontier
      (expand_and_enqueue rand items st s).best s.sortedIndex
      (s.value + bestFuture s.room (items.drop (k + 1))) := by
    cases hts : too_small (bbDecline items s) st.best with
    | true =>
      left
      rw [expand_best]
      have h1 := cov_formula_bound hwf hroom hcdm
      have h2 := too_small_le hts
      have h3 := (pyMaxSel_ge (newSelections items s st.best) st.best).1
      have h4 : s.value + bestFuture s.room (items.drop (k + 1)) ≤
          st.best.value := by exact_mod_cast h1.trans h2
      omega
    | false =>
      have hmemD : bbDecline items s ∈ newSelections items s st.best := by
        apply List.mem_filter.mpr
        refine ⟨List.mem_cons_self _ _, ?_⟩
        rw [Bool.and_eq_true, Bool.not_eq_true', Bool.not_eq_true']
        exact ⟨(too_heavy_false_iff _).mpr hroom, hts⟩
      by_cases hn : s.sortedIndex + 2 < (items.length : Int)
      · exact Or.inr ⟨bbDecline items s, expand_frontier_push hmemD hn,
          by rw [bbDecline_sortedIndex]; omega, le_of_eq hcovd.symm⟩
      · left
        rw [expand_best]
        have hlen : items.length ≤ k + 1 := by omega
        have hnil : items.drop (k + 1) = ([] : List Item) :=
          List.drop_eq_nil_of_le hlen
        have h2 := (pyMaxSel_ge (newSelections items s st.best) st.best).2 _ hmemD
        have h4 : (bbDecline items s).value = s.value := rfl
        have h5 : bestFuture s.room ([] : List Item) = 0 := rfl
        rw [hnil]
        omega
  have hB : (items.getD k defaultItem).weight ≤ s.room →
      CoveredB items (expand_and_enqueue rand items st s).frontier
        (expand_and_enqueue rand items st s).best s.sortedIndex
        (s.value + ((items.getD k defaultItem).value +
          bestFuture (s.room - (items.getD k defaultItem).weight)
            (items.drop (k + 1)))) := by
    intro hw
    have hctv : (bbTake items s).value =
        s.value + (items.getD k defaultItem).value := by
      show s.value + (items.getD (s.sortedIndex + 1).toNat defaultItem).value = _
      rw [htn]
    have hctr : (bbTake items s).room =
        s.room - (items.getD k defaultItem).weight := by
      show s.room - (items.getD (s.sortedIndex + 1).toNat defaultItem).weight = _
      rw [htn]
    have hctm : (bbTake items s).maxValue =
        ((s.value + (items.getD k defaultItem).value : Int) : Rat) +
          ((s.room - (items.getD k defaultItem).weight : Int) : Rat) *
            headDensity (items.drop (k + 1)) := by
      show ((s.value + (items.getD (s.sortedIndex + 1).toNat defaultItem).value :
          Int) : Rat) +
        ((s.room - (items.getD (s.sortedIndex + 1).toNat defaultItem).weight :
          Int) : Rat) * futDensity items s = _
      rw [htn, hfd]
    have hcovt : covB items (bbTake items s) =
        s.value + (items.getD k defaultItem).value +
          bestFuture (s.room - (items.getD k defaultItem).weight)
            (items.drop (k + 1)) := by
      unfold covB
      have h1 : (bbTake items s).sortedIndex.toNat = k := by
        rw [bbTake_sortedIndex]
        exact htn
      rw [h1, hctv, hctr]
    cases hts : too_small (bbTake items s) st.best with
    | true =>
      left
      rw [expand_best]
      have h1 := cov_formula_bound hwf (by omega :
          (0 : Int) ≤ s.room - (items.getD k defaultItem).weight) hctm
      have h2 := too_small_le hts
      have h3 := (pyMaxSel_ge (newSelections items s st.best) st.best).1
      have h4 : s.value + (items.getD k defaultItem).value +
          bestFuture (s.room - (items.getD k defaultItem).weight)
            (items.drop (k + 1)) ≤ st.best.value := by
        exact_mod_cast h1.trans h2
      omega
    | false =>
      have hmemT : bbTake items s ∈ newSelections items s st.best := by
        apply List.mem_filter.mpr
        refine ⟨List.mem_cons_of_mem _ (List.mem_cons_self _ _), ?_⟩
        rw [Bool.and_eq_true, Bool.not_eq_true', Bool.not_eq_true']
        refine ⟨(too_heavy_false_iff _).mpr ?_, hts⟩
        rw [hctr]
        omega
      by_cases hn : s.sortedIndex + 2 < (items.length : Int)
      · exact Or.inr ⟨bbTake items s, expand_frontier_push hmemT hn,
          by rw [bbTake_sortedIndex]; omega, by rw [hcovt]; omega⟩
      · left
        rw [expand_best]
        have hlen : items.length ≤ k + 1 := by omega
        have hnil : items.drop (k + 1) = ([] : List Item) :=
          List.drop_eq_nil_of_le hlen
        have h2 := (pyMaxSel_ge (newSelections items s st.best) st.best).2 _ hmemT
        have h5 : bestFuture (s.room - (items.getD k defaultItem).weight)
            ([] : List Item) = 0 := rfl
        rw [hnil]
        omega
  rw [drop_eq_getD_cons hkn]
  simp only [bestFuture]
  by_cases hw : (items.getD k defaultItem).weight ≤ s.room
  · rw [if_pos hw]
    rcases max_cases (bestFuture s.room (items.drop (k + 1)))
        ((items.getD k defaultItem).value +
          bestFuture (s.room - (items.getD k defaultItem).weight)
            (items.drop (k + 1))) with ⟨heq, _⟩ | ⟨heq, _⟩
    · rw [heq]
      exact hA
    · rw [heq]
      exact hB hw
  · rw [if_neg hw]
    exact hA

/-! ## Children pushed on the frontier satisfy the frontier invariant -/

theorem FrSel_child {cap : Int} {items : List Item} {s best c : BSel} {k : Nat}
    (hk : (k : Int) = s.sortedIndex + 1)
    (hsbs : BSelBs cap items k s)
    (hmem : c ∈ newSelections items s best)
    (hlt : c.sortedIndex + 1 < (items.length : Int)) :
    FrSel cap items c := by
  have hidx : c.sortedIndex = s.sortedIndex + 1 := (mem_newSelections hmem).2.2
  have hroomc : 0 ≤ c.room := newSelections_room hmem
  have htn : (s.sortedIndex + 1).toNat = k := by omega
  have hfd : futDensity items s = headDensity (items.drop (k + 1)) :=
    futDensity_eq hk
  have hctn : c.sortedIndex.toNat = k := by omega
  have hbs : BSelBs cap items (k + 1) c := by
    rcases newSelections_cases hmem with rfl | rfl
    · exact BSelBs_decline hsbs
    · exact BSelBs_take hk hsbs
  refine ⟨by omega, hlt, hroomc, ?_, by rw [hctn]; exact hbs⟩
  rw [hctn]
  rcases newSelections_cases hmem with rfl | rfl
  · show (s.value : Rat) + (s.room : Rat) * futDensity items s = _
    rw [hfd]
    rfl
  · show ((s.value + (items.getD (s.sortedIndex + 1).toNat defaultItem).value :
        Int) : Rat) +
      ((s.room - (items.getD (s.sortedIndex + 1).toNat defaultItem).weight :
        Int) : Rat) * futDensity items s = _
    rw [hfd]
    rfl

theorem expand_frontier_length {rand : Nat → Bool} {items : List Item}
    {st : BBState} {s : BSel} :
    (expand_and_enqueue rand items st s).frontier.length ≤
      st.frontier.length + 2 := by
  rcases hnews : newSelections items s st.best with _ | ⟨c0, cs⟩
  · rw [expand_frontier_of_nil hnews]
    omega
  · rw [expand_frontier_of_cons hnews]
    split
    · rw [List.length_append, orderedPush_length]
      have h2 := newSelections_length_le_two items s st.best
      omega
    · omega

/-! ## The bb_solver loop returns the exhaustive optimum -/

theorem bbLoop_opt (rand : Nat → Bool) (cap : Int) (items : List Item)
    (hwf : ItemsWF items) :
    ∀ (fuel : Nat) (st : BBState), BBInv cap items st →
      bbMeasure cap items st < fuel →
      ∃ tk, bbLoop rand items fuel st = some (bestFuture cap items, tk) := by
  intro fuel
  induction fuel with
  | zero => intro st _ hm; exact absurd hm (Nat.not_lt_zero _)
  | succ fuel ih =>
    intro st hinv hm
    obtain ⟨frl, exp, bst, rk⟩ := st
    cases frl with
    | nil =>
      refine ⟨sortedInts bst.takenSorted, ?_⟩
      simp only [bbLoop]
      have hcov : bestFuture cap items ≤ bst.value ∨
          ∃ t ∈ ([] : List BSel), (-1 : Int) < t.sortedIndex ∧
            bestFuture cap items ≤ covB items t := hinv.cov
      have hub : bst.value ≤ bestFuture cap items := by
        obtain ⟨bs, hv, hw, _⟩ := hinv.bo
        rw [hv]
        exact sumV_le_bestFuture items bs cap (fun it hit => (hwf.1 it hit).1)
          (fun it hit => le_of_lt (hwf.1 it hit).2.1) hw
      have hlb : bestFuture cap items ≤ bst.value := by
        rcases hcov with h | ⟨t, ht, _, _⟩
        · exact h
        · exact absurd ht (List.not_mem_nil t)
      rw [show bst.value = bestFuture cap items from le_antisymm hub hlb]
    | cons s rest =>
      obtain ⟨hs0, hslt, hsroom, hsmax, hsbs⟩ := hinv.fr s (List.mem_cons_self s rest)
      have hm2 : 2 * ((allTriples cap items).length - exp.length) +
          (rest.length + 1) < fuel + 1 := by
        simpa [bbMeasure] using hm
      have hSkip : CoveredB items rest bst s.sortedIndex (covB items s) →
          BBInv cap items ⟨rest, exp, bst, rk⟩ := by
        intro hsCov2
        refine ⟨?_, hinv.ex, hinv.nd, hinv.bo, ?_, ?_⟩
        · intro x hx
          exact hinv.fr x (List.mem_cons_of_mem _ hx)
        · intro e he
          exact CoveredB_step (hinv.ac e he) le_rfl (fun t ht => ht) hsCov2
        · exact CoveredB_step hinv.cov le_rfl (fun t ht => ht) hsCov2
      have hmSkip : bbMeasure cap items ⟨rest, exp, bst, rk⟩ < fuel := by
        simp only [bbMeasure]
        omega
      by_cases hguard : s.sortedIndex + 1 < (items.length : Int) ∧
          already_expanded exp s = false ∧ too_small s bst = false
      · have hstep : bbLoop rand items (fuel + 1) ⟨s :: rest, exp, bst, rk⟩ =
            bbLoop rand items fuel
              (expand_and_enqueue rand items ⟨rest, exp, bst, rk⟩ s) := by
          simp only [bbLoop]
          rw [if_pos hguard]
        have hk : ((s.sortedIndex.toNat + 1 : Nat) : Int) = s.sortedIndex + 1 := by
          omega
        have hkn : s.sortedIndex.toNat + 1 < items.length := by omega
        have hsCov : CoveredB items
            (expand_and_enqueue rand items ⟨rest, exp, bst, rk⟩ s).frontier
            (expand_and_enqueue rand items ⟨rest, exp, bst, rk⟩ s).best
            s.sortedIndex (covB items s) :=
          expand_covers hwf hk hkn hsroom
        have hb3 : bst.value ≤
            (expand_and_enqueue rand items ⟨rest, exp, bst, rk⟩ s).best.value := by
          rw [expand_best]
          exact (pyMaxSel_ge (newSelections items s bst) bst).1
        have hnewE : ExpEntry cap items (s.sortedIndex, s.value, s.room) := by
          obtain ⟨bs, hlen, hv, hr, _⟩ := hsbs
          exact ⟨hs0, by omega, hsroom, bs, by omega, hv, hr⟩
        have hnotin : (s.sortedIndex, s.value, s.room) ∉ exp :=
          already_false_not_mem hguard.2.1
        have hnd3 : (exp ++ [(s.sortedIndex, s.value, s.room)]).Nodup :=
          hinv.nd.append (List.nodup_singleton _)
            (fun a ha hb => hnotin (List.mem_singleton.mp hb ▸ ha))
        have hinv3 : BBInv cap items
            (expand_and_enqueue rand items ⟨rest, exp, bst, rk⟩ s) := by
          refine ⟨?_, ?_, ?_, ?_, ?_, ?_⟩
          · intro x hx
            rcases expand_frontier_sub x hx with ⟨hmem, hxlt⟩ | hmem
            · exact FrSel_child hk hsbs hmem hxlt
            · exact hinv.fr x (List.mem_cons_of_mem _ hmem)
          · intro e he
            rw [expand_expanded, if_pos hs0] at he
            rcases List.mem_append.mp he with he1 | he1
            · exact hinv.ex e he1
            · rw [List.mem_singleton] at he1
              subst he1
              exact hnewE
          · rw [expand_expanded, if_pos hs0]
            exact hnd3
          · show BestB cap items (pyMaxSel (newSelections items s bst) bst)
            rcases pyMaxSel_mem (newSelections items s bst) bst with hmsel | hmsel
            · have hroomc := newSelections_room hmsel
              have hbs2 : BSelBs cap items (s.sortedIndex.toNat + 1 + 1)
                  (pyMaxSel (newSelections items s bst) bst) := by
                rcases newSelections_cases hmsel with h1 | h1
                · rw [h1]
                  exact BSelBs_decline hsbs
                · rw [h1]
                  exact BSelBs_take hk hsbs
              exact BestB_of_BSelBs hbs2 hroomc
            · rw [hmsel]
              exact hinv.bo
          · intro e he
            rw [expand_expanded, if_pos hs0] at he
            rcases List.mem_append.mp he with he1 | he1
            · exact CoveredB_step (hinv.ac e he1) hb3
                (fun t ht => expand_frontier_keep ht) hsCov
            · rw [List.mem_singleton] at he1
              subst he1
              exact hsCov
          · exact CoveredB_step hinv.cov hb3
              (fun t ht => expand_frontier_keep ht) hsCov
        have hTB : exp.length + 1 ≤ (allTriples cap items).length := by
          have hsub : ∀ e ∈ exp ++ [(s.sortedIndex, s.value, s.room)],
              e ∈ allTriples cap items := by
            intro e he
            rcases List.mem_append.mp he with he1 | he1
            · exact expEntry_mem_allTriples (hinv.ex e he1)
            · rw [List.mem_singleton] at he1
              subst he1
              exact expEntry_mem_allTriples hnewE
          have := nodup_length_le hnd3 hsub
          simpa using this
        have hexp3 : (expand_and_enqueue rand items
            ⟨rest, exp, bst, rk⟩ s).expanded.length = exp.length + 1 := by
          rw [expand_expanded, if_pos hs0]
          simp
        have hfl : (expand_and_enqueue rand items
            ⟨rest, exp, bst, rk⟩ s).frontier.length ≤ rest.length + 2 :=
          expand_frontier_length
        have hmeas : bbMeasure cap items
            (expand_and_enqueue rand items ⟨rest, exp, bst, rk⟩ s) < fuel := by
          simp only [bbMeasure, hexp3]
          omega
        obtain ⟨tk, htk⟩ := ih _ hinv3 hmeas
        refine ⟨tk, ?_⟩
        rw [hstep]
        exact htk
      · have hstep : bbLoop rand items (fuel + 1) ⟨s :: rest, exp, bst, rk⟩ =
            bbLoop rand items fuel ⟨rest, exp, bst, rk⟩ := by
          simp only [bbLoop]
          rw [if_neg hguard]
        cases hts : too_small s bst with
        | true =>
          have hsCov2 : CoveredB items rest bst s.sortedIndex (covB items s) := by
            refine Or.inl ?_
            have h1 := cov_formula_bound hwf hsroom hsmax
            have h2 := too_small_le hts
            show s.value + bestFuture s.room
              (items.drop (s.sortedIndex.toNat + 1)) ≤ bst.value
            exact_mod_cast h1.trans h2
          obtain ⟨tk, htk⟩ := ih _ (hSkip hsCov2) hmSkip
          refine ⟨tk, ?_⟩
          rw [hstep]
          exact htk
        | false =>
          cases hae : already_expanded exp s with
          | false => exact absurd ⟨hslt, hae, hts⟩ hguard
          | true =>
            have hsCov2 : CoveredB items rest bst s.sortedIndex (covB items s) := by
              obtain ⟨e, he, he1, hev, her⟩ := already_true_elim hae
              have hac := hinv.ac e he
              rw [he1] at hac
              have hcb : covB items s ≤ e.2.1 + bestFuture e.2.2
                  (items.drop (s.sortedIndex.toNat + 1)) := covB_mono hev her
              exact CoveredB_of_cons_gt (CoveredB_le hcb hac)
            obtain ⟨tk, htk⟩ := ih _ (hSkip hsCov2) hmSkip
            refine ⟨tk, ?_⟩
            rw [hstep]
            exact htk

theorem bbRun_opt {rand : Nat → Bool} {cap : Int} {items : List Item}
    (hwf : ItemsWF items) (hcap : 0 ≤ cap) (hne : items ≠ []) :
    ∃ tk, bbRun rand cap items = some (bestFuture cap items, tk) := by
  cases items with
  | nil => exact absurd rfl hne
  | cons i0 rest =>
    simp only [bbRun]
    have hdummy : BSelBs cap (i0 :: rest) 0
        (⟨-1, 0, cap, (cap : Rat) * i0.density, []⟩ : BSel) :=
      ⟨[], rfl, by rw [sumV_nil],
        by show cap = cap - sumW [] (i0 :: rest); rw [sumW_nil]; omega, rfl⟩
    have hexp0 : (expand_and_enqueue rand (i0 :: rest)
        ⟨[], [], ⟨-1, 0, cap, (cap : Rat) * i0.density, []⟩, 0⟩
        ⟨-1, 0, cap, (cap : Rat) * i0.density, []⟩).expanded = [] := by
      rw [expand_expanded, if_neg (by decide : ¬ (0 : Int) ≤ (-1 : Int))]
    have hsCov : CoveredB (i0 :: rest)
        (expand_and_enqueue rand (i0 :: rest)
          ⟨[], [], ⟨-1, 0, cap, (cap : Rat) * i0.density, []⟩, 0⟩
          ⟨-1, 0, cap, (cap : Rat) * i0.density, []⟩).frontier
        (expand_and_enqueue rand (i0 :: rest)
          ⟨[], [], ⟨-1, 0, cap, (cap : Rat) * i0.density, []⟩, 0⟩
          ⟨-1, 0, cap, (cap : Rat) * i0.density, []⟩).best
        (-1) (bestFuture cap (i0 :: rest)) := by
      have hk0 : ((0 : Nat) : Int) =
          (⟨-1, 0, cap, (cap : Rat) * i0.density, []⟩ : BSel).sortedIndex + 1 :=
        rfl
      have h0 := @expand_covers (i0 :: rest) hwf rand
        ⟨[], [], ⟨-1, 0, cap, (cap : Rat) * i0.density, []⟩, 0⟩
        ⟨-1, 0, cap, (cap : Rat) * i0.density, []⟩ 0 hk0
        (by simp : 0 < (i0 :: rest).length) hcap
      have hdz : (i0 :: rest).drop 0 = i0 :: rest := List.drop_zero _
      rw [hdz] at h0
      refine CoveredB_le ?_ h0
      show bestFuture cap (i0 :: rest) ≤ 0 + bestFuture cap (i0 :: rest)
      omega
    have hinv0 : BBInv cap (i0 :: rest)
        (expand_and_enqueue rand (i0 :: rest)
          ⟨[], [], ⟨-1, 0, cap, (cap : Rat) * i0.density, []⟩, 0⟩
          ⟨-1, 0, cap, (cap : Rat) * i0.density, []⟩) := by
      refine ⟨?_, ?_, ?_, ?_, ?_, hsCov⟩
      · intro x hx
        rcases expand_frontier_sub x hx with ⟨hmem, hxlt⟩ | hmem
        · exact FrSel_child rfl hdummy hmem hxlt
        · cases hmem
      · intro e he
        rw [hexp0] at he
        cases he
      · rw [hexp0]
        exact List.nodup_nil
      · show BestB cap (i0 :: rest) (pyMaxSel (newSelections (i0 :: rest)
          ⟨-1, 0, cap, (cap : Rat) * i0.density, []⟩
          ⟨-1, 0, cap, (cap : Rat) * i0.density, []⟩)
          ⟨-1, 0, cap, (cap : Rat) * i0.density, []⟩)
        rcases pyMaxSel_mem (newSelections (i0 :: rest)
            ⟨-1, 0, cap, (cap : Rat) * i0.density, []⟩
            ⟨-1, 0, cap, (cap : Rat) * i0.density, []⟩)
            ⟨-1, 0, cap, (cap : Rat) * i0.density, []⟩ with hmsel | hmsel
        · have hroomc := newSelections_room hmsel
          have hbs2 : BSelBs cap (i0 :: rest) (0 + 1)
              (pyMaxSel (newSelections (i0 :: rest)
                ⟨-1, 0, cap, (cap : Rat) * i0.density, []⟩
                ⟨-1, 0, cap, (cap : Rat) * i0.density, []⟩)
                ⟨-1, 0, cap, (cap : Rat) * i0.density, []⟩) := by
            rcases newSelections_cases hmsel with h1 | h1
            · rw [h1]
              exact BSelBs_decline hdummy
            · rw [h1]
              exact BSelBs_take rfl hdummy
          exact BestB_of_BSelBs hbs2 hroomc
        · rw [hmsel]
          exact ⟨[], by rw [sumV_nil], by rw [sumW_nil]; omega, rfl⟩
      · intro e he
        rw [hexp0] at he
        cases he
    have hfl : (expand_and_enqueue rand (i0 :: rest)
        ⟨[], [], ⟨-1, 0, cap, (cap : Rat) * i0.density, []⟩, 0⟩
        ⟨-1, 0, cap, (cap : Rat) * i0.density, []⟩).frontier.length ≤ 2 :=
      expand_frontier_length
    have hmeas0 : bbMeasure cap (i0 :: rest)
        (expand_and_enqueue rand (i0 :: rest)
          ⟨[], [], ⟨-1, 0, cap, (cap : Rat) * i0.density, []⟩, 0⟩
          ⟨-1, 0, cap, (cap : Rat) * i0.density, []⟩) <
        bbFuel cap (i0 :: rest) := by
      simp only [bbMeasure, bbFuel, hexp0]
      simp only [List.length_nil]
      omega
    exact bbLoop_opt rand cap (i0 :: rest) hwf (bbFuel cap (i0 :: rest)) _
      hinv0 hmeas0

/-! ## Claim theorems -/

/-- C2: the spec requires best_value == sum(value[i] for i in taken_indices)
for the pair returned by each solver.  The code violates this: on the
single-item instance (value 10, weight 5, density 2) with capacity 5 and
the caller-supplied in-order greedy value 10 (which is optimal),
dynamic_prog returns best_value 10 with an empty taken list, whose value
sum is 0. -/
theorem claim_C2 :
    dynamic_prog 10 5 [⟨0, 10, 5, 2⟩] = some (10, []) ∧
      takenValue [⟨0, 10, 5, 2⟩] [] = 0 ∧ (10 : Int) ≠ 0 := by
  refine ⟨?_, rfl, by decide⟩
  norm_num [dynamic_prog, dpOuter, dpInner, dpTake, dpDecline, qinsert, dselLe,
    lexb, listLe, headDensity]

/-- C4: the claim says each solver returns (0, []) on an empty item list;
in the code both solvers index density_sorted_items[0] unconditionally
and raise IndexError (embedded as none), for every greedy value and
capacity. -/
theorem claim_C4 : ∀ (rand : Nat → Bool) (g cap : Int),
    bb_solver rand g cap [] = none ∧ dynamic_prog g cap [] = none :=
  fun _ _ _ => ⟨rfl, rfl⟩

/-- C5: too_small(node, best) holds exactly when node.max_value <
best.value, or node.max_value == best.value and node.sorted_index >=
best.sorted_index; children for which it holds are not kept in
new_selections, and a popped frontier node for which it holds is
discarded without being expanded. -/
theorem claim_C5 :
    (∀ s best : BSel, too_small s best = true ↔
      (s.maxValue < (best.value : Rat) ∨
        (s.maxValue = (best.value : Rat) ∧ best.sortedIndex ≤ s.sortedIndex))) ∧
    (∀ (items : List Item) (s best c : BSel),
      c ∈ newSelections items s best → too_small c best = false) ∧
    (∀ (rand : Nat → Bool) (items : List Item) (fuel : Nat) (st : BBState)
      (s : BSel) (rest : List BSel), st.frontier = s :: rest →
      too_small s st.best = true →
      bbLoop rand items (fuel + 1) st =
        bbLoop rand items fuel ⟨rest, st.expanded, st.best, st.rk⟩) := by
  refine ⟨too_small_iff, fun items s best c hc => (mem_newSelections hc).2.1, ?_⟩
  intro rand items fuel st s rest hfr hsmall
  obtain ⟨frl, exp, bst, rk⟩ := st
  simp only at hfr hsmall
  subst hfr
  simp only [bbLoop]
  rw [if_neg]
  intro hg
  rw [hsmall] at hg
  exact absurd hg.2.2 (by simp)

/-- Witness for C5 at concrete inputs: the take child of the dummy root
on a one-item instance survives the filter, and a too-small popped node
is dropped by one loop step. -/
theorem claim_C5_witness :
    too_small (bbTake [⟨0, 1, 1, 1⟩] ⟨-1, 0, 5, 5, []⟩) ⟨-1, 0, 5, 5, []⟩ = false ∧
    bbLoop (fun _ => true) [⟨0, 1, 1, 1⟩] 3
        ⟨[⟨0, 0, 0, 0, []⟩], [], ⟨0, 5, 0, 5, [0]⟩, 0⟩ =
      bbLoop (fun _ => true) [⟨0, 1, 1, 1⟩] 2 ⟨[], [], ⟨0, 5, 0, 5, [0]⟩, 0⟩ :=
  ⟨claim_C5.2.1 [⟨0, 1, 1, 1⟩] ⟨-1, 0, 5, 5, []⟩ ⟨-1, 0, 5, 5, []⟩ _
      (by norm_num [newSelections, bbDecline, bbTake, too_heavy, too_small,
        futDensity, decline_next_item, take_next_item, defaultItem, List.filter]),
    claim_C5.2.2 (fun _ => true) [⟨0, 1, 1, 1⟩] 2
      ⟨[⟨0, 0, 0, 0, []⟩], [], ⟨0, 5, 0, 5, [0]⟩, 0⟩ ⟨0, 0, 0, 0, []⟩ [] rfl
      (by decide)⟩

/-- C6: the best_value returned by bb_solver does not depend on the
random reversal of the decline/take push order: runs with any two
random bit streams return the same best_value (the code sorts the pair
after the random reversal, making the reversal immaterial). -/
theorem claim_C6 : ∀ (r1 r2 : Nat → Bool) (g cap : Int) (items : List Item),
    (bb_solver r1 g cap items).map Prod.fst =
      (bb_solver r2 g cap items).map Prod.fst := by
  intro r1 r2 g cap items
  show (bbRun r1 cap items).map Prod.fst = (bbRun r2 cap items).map Prod.fst
  rw [bbRun_rand r1 r2]

/-- C8 counterexample: dynamic_prog does use its greedy_value argument:
on the one-item instance (value 1, weight 1) with capacity 1 the result
differs between greedy_value 0 and greedy_value 100. -/
theorem claim_C8_counterexample :
    dynamic_prog 0 1 [⟨0, 1, 1, 1⟩] = some (1, [0]) ∧
    dynamic_prog 100 1 [⟨0, 1, 1, 1⟩] = some (100, []) ∧
    dynamic_prog 0 1 [⟨0, 1, 1, 1⟩] ≠ dynamic_prog 100 1 [⟨0, 1, 1, 1⟩] := by
  have h0 : dynamic_prog 0 1 [⟨0, 1, 1, 1⟩] = some (1, [0]) := by
    norm_num [dynamic_prog, dpOuter, dpInner, dpTake, dpDecline, qinsert, dselLe,
      lexb, listLe, headDensity]
  have h100 : dynamic_prog 100 1 [⟨0, 1, 1, 1⟩] = some (100, []) := by
    norm_num [dynamic_prog, dpOuter, dpInner, dpTake, dpDecline, qinsert, dselLe,
      lexb, listLe, headDensity]
  refine ⟨h0, h100, ?_⟩
  rw [h0, h100]
  decide

/-- C8 (amended): bb_solver ignores its greedy_value argument, so its
result is identical for any two greedy values; dynamic_prog seeds its
best selection with greedy_value and its result can depend on it. -/
theorem claim_C8 : ∀ (rand : Nat → Bool) (g1 g2 cap : Int) (items : List Item),
    bb_solver rand g1 cap items = bb_solver rand g2 cap items :=
  fun _ _ _ _ _ => rfl

/-- C10: the best_value returned by dynamic_prog is at least the
greedy_value argument: the running best is seeded with it and only ever
replaced by strictly larger values. -/
theorem claim_C10 : ∀ (g cap : Int) (items : List Item) (v : Int) (tk : List Int),
    dynamic_prog g cap items = some (v, tk) → g ≤ v :=
  fun _ _ _ _ _ h => dynamic_prog_ge_greedy h

/-- Witness for C10 on a concrete instance. -/
theorem claim_C10_witness : (0 : Int) ≤ 1 :=
  claim_C10 0 1 [⟨0, 1, 1, 1⟩] 1 [0]
    (by norm_num [dynamic_prog, dpOuter, dpInner, dpTake, dpDecline, qinsert,
      dselLe, lexb, listLe, headDensity])

/-- C3: children with negative room are discarded (every retained child
has room >= 0), and the taken indices returned by either solver have
total weight at most the capacity. -/
theorem claim_C3 :
    (∀ (items : List Item) (s best c : BSel),
      c ∈ newSelections items s best → 0 ≤ c.room) ∧
    (∀ (rand : Nat → Bool) (g cap : Int) (items : List Item) (v : Int)
      (tk : List Int), 0 ≤ cap → bb_solver rand g cap items = some (v, tk) →
      takenWeight items tk ≤ cap) ∧
    (∀ (g cap : Int) (items : List Item) (v : Int) (tk : List Int),
      0 ≤ cap → dynamic_prog g cap items = some (v, tk) →
      takenWeight items tk ≤ cap) := by
  refine ⟨fun items s best c hc => newSelections_room hc, ?_, ?_⟩
  · intro rand g cap items v tk hcap h
    exact (bbRun_feas hcap h).1
  · intro g cap items v tk hcap h
    exact (dynamic_prog_feasible hcap h).1

/-- Witness for C3 at concrete inputs for all three conjuncts. -/
theorem claim_C3_witness :
    0 ≤ (bbTake [⟨0, 1, 1, 1⟩] ⟨-1, 0, 5, 5, []⟩).room ∧
    takenWeight [⟨0, 1, 1, 1⟩] [0] ≤ 1 ∧
    takenWeight [⟨0, 10, 5, 2⟩] [] ≤ 5 :=
  ⟨claim_C3.1 [⟨0, 1, 1, 1⟩] ⟨-1, 0, 5, 5, []⟩ ⟨-1, 0, 5, 5, []⟩ _
      (by norm_num [newSelections, bbDecline, bbTake, too_heavy, too_small,
        futDensity, decline_next_item, take_next_item, defaultItem, List.filter]),
    claim_C3.2.1 (fun _ => true) 0 1 [⟨0, 1, 1, 1⟩] 1 [0] (by decide)
      (by norm_num [bb_solver, bbRun, bbLoop, bbFuel, allTriples, boolLists,
        sumV, sumW, expand_and_enqueue, newSelections, bbDecline, bbTake,
        too_heavy, too_small, futDensity, decline_next_item, take_next_item,
        defaultItem, List.filter, pyMaxSel, pyMaxFrom, pyBetter, orderedPush,
        sortSel, insSel, bselLe, lexb, listLe, already_expanded, sortedInts,
        insInt]),
    claim_C3.2.2 10 5 [⟨0, 10, 5, 2⟩] 10 [] (by decide)
      (by norm_num [dynamic_prog, dpOuter, dpInner, dpTake, dpDecline, qinsert,
        dselLe, lexb, listLe, headDensity])⟩

/-- C1 counterexample: the claim as stated quantifies only over the
instance, but dynamic_prog also takes a greedy_value seed; with a seed
above the optimum (here 5 on a one-item instance of optimum 1) it
returns the seed, not the exhaustive 0/1 optimum. -/
theorem claim_C1_counterexample :
    (dynamic_prog 5 1 [⟨0, 1, 1, 1⟩]).map Prod.fst = some 5 ∧
      bestFuture 1 [⟨0, 1, 1, 1⟩] = 1 := by
  constructor
  · norm_num [dynamic_prog, dpOuter, dpInner, dpTake, dpDecline, qinsert,
      dselLe, lexb, listLe, headDensity]
  · decide

/-- C1 (amended): on a well-formed density-sorted instance with at least
one item and a greedy_value between 0 and the exhaustive 0/1 optimum (as
the solver.py driver always supplies), both bb_solver and dynamic_prog
return exactly the exhaustive 0/1 optimum as their best_value. -/
theorem claim_C1 (rand : Nat → Bool) (greedy cap : Int) (items : List Item)
    (hwf : ItemsWF items) (hcap : 0 ≤ cap) (hne : items ≠ [])
    (_hlen : items.length ≤ 20) (hg0 : 0 ≤ greedy)
    (hgle : greedy ≤ bestFuture cap items) :
    (bb_solver rand greedy cap items).map Prod.fst =
        some (bestFuture cap items) ∧
      (dynamic_prog greedy cap items).map Prod.fst =
        some (bestFuture cap items) := by
  constructor
  · obtain ⟨tk, htk⟩ := bbRun_opt hwf hcap hne
    show (bbRun rand cap items).map Prod.fst = some (bestFuture cap items)
    rw [htk]
    rfl
  · exact dynamic_prog_opt hwf hcap hne hg0 hgle

/-- Witness for C1 on a concrete one-item instance. -/
theorem claim_C1_witness :
    (bb_solver (fun _ => false) 0 1 [⟨0, 1, 1, 1⟩]).map Prod.fst =
        some (bestFuture 1 [⟨0, 1, 1, 1⟩]) ∧
      (dynamic_prog 0 1 [⟨0, 1, 1, 1⟩]).map Prod.fst =
        some (bestFuture 1 [⟨0, 1, 1, 1⟩]) :=
  claim_C1 (fun _ => false) 0 1 [⟨0, 1, 1, 1⟩]
    ⟨fun it hit => by fin_cases hit <;> norm_num,
      List.pairwise_singleton _ _⟩
    (by decide) (List.cons_ne_nil _ _) (by decide) (by decide) (by decide)

/-- C7: on the density-sorted concrete instance
[(v=50,w=3), (v=40,w=4), (v=30,w=6), (v=10,w=5)] with capacity 10, both
bb_solver (for every random stream and greedy argument) and dynamic_prog
(with the driver greedy value 90) return best_value 90. -/
theorem claim_C7 :
    (∀ (rand : Nat → Bool) (g : Int),
      (bb_solver rand g 10 [⟨3, 50, 3, 50/3⟩, ⟨1, 40, 4, 10⟩, ⟨2, 30, 6, 5⟩,
        ⟨0, 10, 5, 2⟩]).map Prod.fst = some 90) ∧
    (dynamic_prog 90 10 [⟨3, 50, 3, 50/3⟩, ⟨1, 40, 4, 10⟩, ⟨2, 30, 6, 5⟩,
        ⟨0, 10, 5, 2⟩]).map Prod.fst = some 90 := by
  have hwf : ItemsWF [⟨3, 50, 3, 50/3⟩, ⟨1, 40, 4, 10⟩, ⟨2, 30, 6, 5⟩,
      ⟨0, 10, 5, 2⟩] := by
    refine ⟨fun it hit => by fin_cases hit <;> norm_num, ?_⟩
    refine List.Pairwise.cons ?_ (List.Pairwise.cons ?_
      (List.Pairwise.cons ?_ (List.pairwise_singleton _ _)))
    · intro b hb
      fin_cases hb <;> norm_num
    · intro b hb
      fin_cases hb <;> norm_num
    · intro b hb
      fin_cases hb <;> norm_num
  have hbf : bestFuture 10 [⟨3, 50, 3, 50/3⟩, ⟨1, 40, 4, 10⟩, ⟨2, 30, 6, 5⟩,
      ⟨0, 10, 5, 2⟩] = 90 := by decide
  constructor
  · intro rand g
    obtain ⟨tk, htk⟩ := @bbRun_opt rand 10 [⟨3, 50, 3, 50/3⟩, ⟨1, 40, 4, 10⟩,
      ⟨2, 30, 6, 5⟩, ⟨0, 10, 5, 2⟩] hwf (by decide) (List.cons_ne_nil _ _)
    show (bbRun rand 10 _).map Prod.fst = some 90
    rw [htk, hbf]
    rfl
  · have h := @dynamic_prog_opt 90 10 [⟨3, 50, 3, 50/3⟩, ⟨1, 40, 4, 10⟩,
      ⟨2, 30, 6, 5⟩, ⟨0, 10, 5, 2⟩] hwf (by decide) (List.cons_ne_nil _ _)
      (by decide) (by decide)
    rw [h, hbf]

end Knapsack
